import Mathlib

/-!
Verification of the NPC decision engine of `src/server/npcAI.js`
(grid-based multiplayer snake game).

The JavaScript source is shallowly embedded: every function of the AI core
(`getDifficultySettings`, `decideNPCMove`, `isMoveImmediatelySafe`,
`getNextCoord`, `isOccupied`, `findPathToClosestFood`, `countAccessibleTiles`,
`processNPCInputs`) becomes an executable Lean definition.  JavaScript's
ambient `Math.random()` is modelled as an explicit stream of rationals that is
consumed in exactly the order the source calls `Math.random()`.  The grid
dimension globals `GRID_WIDTH`/`GRID_HEIGHT` (imported from `gameLogic.js`)
become explicit parameters `W H : Nat`.  Unbounded `while` loops over a queue
or stack terminate because newly enqueued cells are always fresh members of a
finite grid; they are embedded with an explicit fuel argument that is provably
never exhausted (fuel exceeds the total number of possible enqueue
operations).

One deliberate deviation: when a *living* player has an *empty* snake the
source would throw a `TypeError` (`tail.x` on `undefined` in `isOccupied`);
our embedding returns `false` for that player's tail test.  The spec's data
model rules this state out ("a Snake always has at least one segment while its
Player is alive"), and every theorem whose meaning could depend on that corner
carries the corresponding well-formedness hypothesis.
-/

/-- Integer grid coordinates, `{x, y}` in the source. -/
structure Pos where
  x : Int
  y : Int
deriving DecidableEq, Repr

/-- One of the four movement directions (the strings
`'up' | 'down' | 'left' | 'right'` of the source). -/
inductive Dir where
  | up
  | down
  | left
  | right
deriving DecidableEq, Repr

/-- The fixed direction order `['up', 'down', 'left', 'right']` used by every
loop over candidate moves in the source. -/
def moveOrder : List Dir := [.up, .down, .left, .right]

/-- The `opposites` table of `processNPCInputs`. -/
def opposite : Dir → Dir
  | .up => .down
  | .down => .up
  | .left => .right
  | .right => .left

/-- `getNextCoord(pos, direction, wallMode)`: one unit step; raw coordinates
in wall mode, coordinates reduced `(c + size) % size` (JavaScript truncating
`%`, i.e. `Int.tmod`) in wrap mode. -/
def getNextCoord (W H : Nat) (pos : Pos) (direction : Dir) (wallMode : Bool) : Pos :=
  let x : Int := match direction with
    | .left => pos.x - 1
    | .right => pos.x + 1
    | _ => pos.x
  let y : Int := match direction with
    | .up => pos.y - 1
    | .down => pos.y + 1
    | _ => pos.y
  if wallMode then
    ⟨x, y⟩
  else
    ⟨Int.tmod (x + W) W, Int.tmod (y + H) H⟩

/-- A difficulty tier.  The source keys tiers by strings; any string other
than the three known ones behaves like an unknown key (`settings[difficulty]`
is `undefined` and falls back to medium), modelled by `unknown`. -/
inductive Difficulty where
  | easy
  | medium
  | hard
  | unknown
deriving DecidableEq, Repr

/-- The behavioural parameters of one difficulty tier. -/
structure DifficultySettings where
  reactionDelayFrames : Nat
  errorChance : ℚ
  usePathfinding : Bool
  safetyCheck : Bool
deriving DecidableEq, Repr

/-- `getDifficultySettings(difficulty)`: the static difficulty table;
unknown tiers fall back to medium (`settings[difficulty] || settings.medium`).
Error chances `0.25` and `0.05` are written `mkRat 1 4` and `mkRat 1 20`. -/
def getDifficultySettings : Difficulty → DifficultySettings
  | .easy => ⟨10, mkRat 1 4, false, false⟩
  | .medium => ⟨4, mkRat 1 20, true, false⟩
  | .hard => ⟨0, 0, true, true⟩
  | .unknown => ⟨4, mkRat 1 20, true, false⟩

/-- A player record (the fields of `gameState.players[id]` read or written by
the AI core).  `isNpc` models `player.type === 'npc'`. -/
structure Player where
  id : Nat
  isNpc : Bool
  isAlive : Bool
  snake : List Pos
  direction : Dir
  nextDirection : Dir
deriving DecidableEq, Repr

/-- A bot agent as built by `createNPC`. -/
structure NPC where
  id : Nat
  name : String
  difficulty : Difficulty
  targetFood : Option Pos
  decisionDelay : Nat
deriving DecidableEq, Repr

/-- The game state fields the AI core reads: topology flag, the players
(`Object.values` order) and the food positions. -/
structure GameState where
  wallMode : Bool
  players : List Player
  food : List Pos
deriving DecidableEq, Repr

/-- `isOccupied(pos, gameState, myId)`: out of bounds in wall mode, or any
segment (tail included) of any living player's snake.  (`myId` is accepted
and ignored, exactly as in the source.)  For a living player with an empty
snake the source would throw; we return `false` for that player. -/
def isOccupied (W H : Nat) (pos : Pos) (gs : GameState) (_myId : Option Nat) : Bool :=
  (gs.wallMode && (pos.x < 0 || (W : Int) ≤ pos.x || pos.y < 0 || (H : Int) ≤ pos.y))
  || gs.players.any (fun player =>
      player.isAlive &&
        (player.snake.dropLast.any (fun s => s.x == pos.x && s.y == pos.y)
          || (match player.snake.getLast? with
              | some tail => tail.x == pos.x && tail.y == pos.y
              | none => false)))

/-- `isMoveImmediatelySafe(head, direction, gameState, myId)`. -/
def isMoveImmediatelySafe (W H : Nat) (head : Pos) (direction : Dir) (gs : GameState)
    (myId : Option Nat) : Bool :=
  let nextPos := getNextCoord W H head direction gs.wallMode
  if gs.wallMode &&
      (nextPos.x < 0 || (W : Int) ≤ nextPos.x || nextPos.y < 0 || (H : Int) ≤ nextPos.y) then
    false
  else
    !isOccupied W H nextPos gs myId

/-- An entry of the BFS queue of `findPathToClosestFood`:
`{ pos, firstMove, dist }`. -/
structure QEntry where
  pos : Pos
  firstMove : Dir
  dist : Nat
deriving DecidableEq, Repr

/-- The body of the BFS `while` loop of `findPathToClosestFood`, with fuel.
The queue is FIFO (`push` at the end, `shift` from the front); `visited` is
the string-keyed `Set`, modelled as a duplicate-free list. -/
def findPathAux (W H : Nat) (gs : GameState) (myId : Option Nat) :
    Nat → List QEntry → List Pos → Option (Dir × Nat)
  | 0, _, _ => none
  | _ + 1, [], _ => none
  | fuel + 1, e :: rest, visited =>
    if gs.food.any (fun f => f.x == e.pos.x && f.y == e.pos.y) then
      some (e.firstMove, e.dist)
    else if 50 < e.dist then
      findPathAux W H gs myId fuel rest visited
    else
      let expanded := moveOrder.foldl
        (fun (acc : List QEntry × List Pos) move =>
          let next := getNextCoord W H e.pos move gs.wallMode
          if acc.2.contains next || isOccupied W H next gs myId then acc
          else (acc.1 ++ [⟨next, e.firstMove, e.dist + 1⟩], acc.2 ++ [next]))
        (rest, visited)
      findPathAux W H gs myId fuel expanded.1 expanded.2

/-- The seed loop of `findPathToClosestFood`: each unoccupied one-step
neighbour of `startPos` enters the queue with its first move and distance 1.
The source pushes without a visited test (only the `Set` deduplicates). -/
def bfsSeeds (W H : Nat) (gs : GameState) (myId : Option Nat) (startPos : Pos) :
    List QEntry × List Pos :=
  moveOrder.foldl
    (fun (acc : List QEntry × List Pos) move =>
      let next := getNextCoord W H startPos move gs.wallMode
      if isOccupied W H next gs myId then acc
      else (acc.1 ++ [⟨next, move, 1⟩],
            if acc.2.contains next then acc.2 else acc.2 ++ [next]))
    ([], [])

/-- `findPathToClosestFood(startPos, gameState, myId)`: BFS to the nearest
food.  Fuel `W*H + 9` strictly exceeds the number of possible loop
iterations (at most 4 seeds plus one enqueue per fresh grid cell), so the
fuel case is never reached; this is proved, not assumed, by the invariants
below. -/
def findPathToClosestFood (W H : Nat) (startPos : Pos) (gs : GameState)
    (myId : Option Nat) : Option (Dir × Nat) :=
  let seeds := bfsSeeds W H gs myId startPos
  findPathAux W H gs myId (W * H + 9) seeds.1 seeds.2

/-- The body of the flood-fill `while` loop of `countAccessibleTiles`, with
fuel; generic in the direction order (the source uses `moveOrder`).  The
stack is LIFO (`push`/`pop` at the end), modelled with the top at the head. -/
def countAccessibleAux (W H : Nat) (gs : GameState) (myId : Option Nat) (limit : Nat)
    (order : List Dir) : Nat → List Pos → List Pos → Nat → Nat
  | 0, _, _, count => count
  | _ + 1, [], _, count => count
  | fuel + 1, current :: rest, visited, count =>
    if limit ≤ count + 1 then limit
    else
      let expanded := order.foldl
        (fun (acc : List Pos × List Pos) move =>
          let next := getNextCoord W H current move gs.wallMode
          if acc.2.contains next || isOccupied W H next gs myId then acc
          else (next :: acc.1, acc.2 ++ [next]))
        (rest, visited)
      countAccessibleAux W H gs myId limit order fuel expanded.1 expanded.2 (count + 1)

/-- `countAccessibleTiles(startPos, gameState, myId, limit)` generalised over
the direction order used for neighbour expansion. -/
def countAccessibleTilesWith (order : List Dir) (W H : Nat) (startPos : Pos)
    (gs : GameState) (myId : Option Nat) (limit : Nat) : Nat :=
  countAccessibleAux W H gs myId limit order (W * H + 9) [startPos] [startPos] 0

/-- `countAccessibleTiles(startPos, gameState, myId, limit)`: flood fill
counting cells reachable from `startPos`, returning early with `limit` once
the count reaches it. -/
def countAccessibleTiles (W H : Nat) (startPos : Pos) (gs : GameState)
    (myId : Option Nat) (limit : Nat) : Nat :=
  countAccessibleTilesWith moveOrder W H startPos gs myId limit

/-- One `Math.random()` draw from the explicit random stream. -/
def draw (rng : List ℚ) : ℚ × List ℚ :=
  match rng with
  | [] => (0, [])
  | r :: rest => (r, rest)

/-- The dynamic re-tiering at the top of `decideNPCMove`: easy is promoted to
medium past snake length 20, medium to hard past 30; the stored tier itself
is not modified. -/
def effDifficulty (npc : NPC) (player : Player) : Difficulty :=
  if 20 < player.snake.length ∧ npc.difficulty = .easy then .medium
  else if 30 < player.snake.length ∧ npc.difficulty = .medium then .hard
  else npc.difficulty

/-- The safe-move filter of `decideNPCMove` step 2 (given the head). -/
def safeMovesFrom (W H : Nat) (gs : GameState) (head : Pos) (myId : Option Nat) : List Dir :=
  moveOrder.filter (fun move => isMoveImmediatelySafe W H head move gs myId)

/-- The safe-move set of a player (empty when its snake is empty). -/
def safeMovesOf (W H : Nat) (gs : GameState) (player : Player) : List Dir :=
  match player.snake with
  | [] => []
  | head :: _ => safeMovesFrom W H gs head (some player.id)

/-- Section 4.A of `decideNPCMove`: the pathfinding commit.  Returns the
committed move, or `none` to fall through (no path, first step unsafe, or the
space check failed). -/
def pathCommit (W H : Nat) (gs : GameState) (player : Player)
    (settings : DifficultySettings) (head : Pos) (safeMoves : List Dir) : Option Dir :=
  match findPathToClosestFood W H head gs (some player.id) with
  | none => none
  | some pathResult =>
    if safeMoves.contains pathResult.1 then
      let bestMove := pathResult.1
      let nextPos := getNextCoord W H head bestMove gs.wallMode
      if settings.safetyCheck then
        let availableSpace :=
          countAccessibleTiles W H nextPos gs (some player.id) player.snake.length
        if player.snake.length ≤ availableSpace then some bestMove else none
      else
        let space := countAccessibleTiles W H nextPos gs (some player.id) 20
        -- `space >= player.snake.length / 2` with exact (floating) halving
        if player.snake.length ≤ 2 * space then some bestMove else none
    else none

/-- The wrapped Manhattan distance used by the survival tail-chase and the
hot/cold fallback: per-axis absolute difference in wall mode, the smaller of
the raw and grid-size-complemented difference in wrap mode
(`dx = Math.min(dx, GRID_WIDTH - dx)`). -/
def wrappedDist (W H : Nat) (wallMode : Bool) (a b : Pos) : Int :=
  let dx0 : Int := (a.x - b.x).natAbs
  let dy0 : Int := (a.y - b.y).natAbs
  (if wallMode then dx0 else min dx0 ((W : Int) - dx0))
    + (if wallMode then dy0 else min dy0 ((H : Int) - dy0))

/-- The flood-fill score of one candidate move in survival mode
(`countAccessibleTiles(nextPos, gameState, player.id, 100)`). -/
def survivalSpace (W H : Nat) (gs : GameState) (player : Player) (head : Pos)
    (move : Dir) : Nat :=
  countAccessibleTiles W H (getNextCoord W H head move gs.wallMode) gs
    (some player.id) 100

/-- Section 4.B of `decideNPCMove`: survival mode (hard tier).  First the
space-maximising pass over the safe moves (limit 100, strict improvement over
an initial `-1`), then the tail-chasing pass (strict improvement over
`Infinity`). -/
def survivalMove (W H : Nat) (gs : GameState) (player : Player) (head : Pos)
    (safeMoves : List Dir) : Option Dir :=
  let best := safeMoves.foldl
    (fun (acc : Option Dir × Int) move =>
      if acc.2 < (survivalSpace W H gs player head move : Int) then
        (some move, (survivalSpace W H gs player head move : Int))
      else acc)
    (none, -1)
  if (player.snake.length : Int) ≤ best.2 then best.1
  else
    match player.snake.getLast? with
    | some tail =>
      let chase := safeMoves.foldl
        (fun (acc : Option Dir × Option Int) move =>
          match acc.2 with
          | none =>
            (some move, some (wrappedDist W H gs.wallMode tail
              (getNextCoord W H head move gs.wallMode)))
          | some bestDist =>
            if wrappedDist W H gs.wallMode tail
                (getNextCoord W H head move gs.wallMode) < bestDist then
              (some move, some (wrappedDist W H gs.wallMode tail
                (getNextCoord W H head move gs.wallMode)))
            else acc)
        (none, none)
      match chase.1 with
      | some move => some move
      | none => best.1
    | none => best.1

/-- Section 5 of `decideNPCMove`: the greedy "hot/cold" steering toward the
food of least raw Manhattan distance from the head (target chosen unwrapped,
candidate moves scored with wrapping in wrap mode). -/
def hotColdMove (W H : Nat) (gs : GameState) (head : Pos) (safeMoves : List Dir) :
    Option Dir :=
  let targetFood : Option Pos :=
    match gs.food with
    | [] => none
    | f0 :: _ =>
      some (gs.food.foldl
        (fun (acc : Pos × Option Int) f =>
          let d : Int := (f.x - head.x).natAbs + (f.y - head.y).natAbs
          match acc.2 with
          | none => (f, some d)
          | some minDist => if d < minDist then (f, some d) else acc)
        (f0, none)).1
  match targetFood with
  | none => safeMoves.head?
  | some target =>
    (safeMoves.foldl
      (fun (acc : Option Dir × Option Int) move =>
        match acc.2 with
        | none =>
          (some move, some (wrappedDist W H gs.wallMode target
            (getNextCoord W H head move gs.wallMode)))
        | some shortest =>
          if wrappedDist W H gs.wallMode target
              (getNextCoord W H head move gs.wallMode) < shortest then
            (some move, some (wrappedDist W H gs.wallMode target
              (getNextCoord W H head move gs.wallMode)))
          else acc)
      (safeMoves.head?, none)).1

/-- Section 5 of `decideNPCMove` with the easy-tier straight-preference gate
(a 60% chance to keep the current heading when the tier does not use
pathfinding and the heading is safe). -/
def fallbackMove (W H : Nat) (gs : GameState) (settings : DifficultySettings)
    (head : Pos) (currentDir : Dir) (safeMoves : List Dir) (rng : List ℚ) :
    Option Dir × List ℚ :=
  if !settings.usePathfinding && safeMoves.contains currentDir then
    let drawn := draw rng
    if drawn.1 < mkRat 3 5 then (some currentDir, drawn.2)
    else (hotColdMove W H gs head safeMoves, drawn.2)
  else (hotColdMove W H gs head safeMoves, rng)

/-- Steps 3-5 of `decideNPCMove` (after the delay gate and the safe-move
filter): error injection, then pathfinding/survival, then the fallback. -/
def chooseMove (W H : Nat) (gs : GameState) (player : Player)
    (settings : DifficultySettings) (head : Pos) (currentDir : Dir)
    (safeMoves : List Dir) (rng : List ℚ) : Option Dir × List ℚ :=
  let drawn := draw rng
  if drawn.1 < settings.errorChance then
    let drawn2 := draw drawn.2
    -- `Math.floor(Math.random() * safeMoves.length)`: for the rational
    -- `r = r.num / r.den` the floor of `r * n` is `(r.num * n).fdiv r.den`
    -- (floor division by the positive denominator); see `floor_mul_natCast`.
    let idx : Int := (drawn2.1.num * safeMoves.length).fdiv drawn2.1.den
    (if 0 ≤ idx then safeMoves[idx.toNat]? else none, drawn2.2)
  else
    let rng := drawn.2
    if settings.usePathfinding then
      match pathCommit W H gs player settings head safeMoves with
      | some move => (some move, rng)
      | none =>
        if settings.safetyCheck then (survivalMove W H gs player head safeMoves, rng)
        else fallbackMove W H gs settings head currentDir safeMoves rng
    else fallbackMove W H gs settings head currentDir safeMoves rng

/-- `decideNPCMove(npc, gameState, player)`: the per-tick decision policy.
Returns the proposed direction (or `none`), the bot agent with its updated
`decisionDelay`, and the remaining random stream. -/
def decideNPCMove (W H : Nat) (npc : NPC) (gs : GameState) (player : Player)
    (rng : List ℚ) : Option Dir × NPC × List ℚ :=
  match player.isAlive, player.snake with
  | true, head :: _ =>
    let settings := getDifficultySettings (effDifficulty npc player)
    if 0 < npc.decisionDelay then
      (none, { npc with decisionDelay := npc.decisionDelay - 1 }, rng)
    else
      let npc' := { npc with decisionDelay := settings.reactionDelayFrames }
      let safeMoves := safeMovesFrom W H gs head (some player.id)
      if safeMoves.isEmpty then (none, npc', rng)
      else
        let chosen := chooseMove W H gs player settings head player.direction safeMoves rng
        (chosen.1, npc', chosen.2)
  | _, _ => (none, npc, rng)

/-- One iteration of the `forEach` of `processNPCInputs`: skip non-bot or
dead players and players without an agent; otherwise decide, then commit the
proposed direction unless it is the exact opposite of the current heading. -/
def processOne (W H : Nat) (gs : GameState) (npcs : List NPC) (rng : List ℚ)
    (player : Player) : Player × List NPC × List ℚ :=
  if !player.isNpc || !player.isAlive then (player, npcs, rng)
  else
    match npcs.find? (fun n => n.id == player.id) with
    | none => (player, npcs, rng)
    | some npc =>
      let decided := decideNPCMove W H npc gs player rng
      let npcs' := npcs.map (fun n => if n.id == player.id then decided.2.1 else n)
      match decided.1 with
      | none => (player, npcs', decided.2.2)
      | some direction =>
        if opposite direction ≠ player.direction then
          ({ player with nextDirection := direction }, npcs', decided.2.2)
        else (player, npcs', decided.2.2)

/-- `processNPCInputs(gameState, npcs)`: the per-tick entry point.  The
players are processed in order; each decision reads the tick-start game state
(the source mutates only `nextDirection` and `decisionDelay` mid-loop, and
`decideNPCMove` never reads either field of another player or agent), and the
random stream threads through sequentially. -/
def processNPCInputs (W H : Nat) (gs : GameState) (npcs : List NPC) (rng : List ℚ) :
    GameState × List NPC × List ℚ :=
  let result := gs.players.foldl
    (fun (acc : List Player × List NPC × List ℚ) player =>
      let step := processOne W H gs acc.2.1 acc.2.2 player
      (acc.1 ++ [step.1], step.2.1, step.2.2))
    ([], npcs, rng)
  ({ gs with players := result.1 }, result.2.1, result.2.2)

/-! ### Reference definitions used only to *state* properties

These are not part of the embedding of the source; they give the
specification-side notions (reachability, exact-length walks, the grid cell
enumeration) against which the searches of the source are verified. -/

/-- A cell is *open* when the occupancy oracle does not block it. -/
def isOpen (W H : Nat) (gs : GameState) (myId : Option Nat) (p : Pos) : Bool :=
  !isOccupied W H p gs myId

/-- The open one-step neighbours of a cell, in the fixed direction order. -/
def openNbrs (W H : Nat) (gs : GameState) (myId : Option Nat) (p : Pos) : List Pos :=
  (moveOrder.map (fun m => getNextCoord W H p m gs.wallMode)).filter
    (isOpen W H gs myId)

/-- `layersFrom s n`: the cells reachable from `s` by a walk of length
exactly `n` every one of whose stepped-to cells is open (`s` itself need not
be open). -/
def layersFrom (W H : Nat) (gs : GameState) (myId : Option Nat) (s : Pos) :
    Nat → List Pos
  | 0 => [s]
  | n + 1 =>
    (((layersFrom W H gs myId s n).flatMap (openNbrs W H gs myId))).dedup

/-- One saturation step for the reachable set: the set together with all its
open neighbours. -/
def expandOnce (W H : Nat) (gs : GameState) (myId : Option Nat) (l : List Pos) :
    List Pos :=
  (l ++ l.flatMap (openNbrs W H gs myId)).dedup

/-- `n`-fold saturation from `{s}`. -/
def saturateFrom (W H : Nat) (gs : GameState) (myId : Option Nat) (s : Pos) :
    Nat → List Pos
  | 0 => [s]
  | n + 1 => expandOnce W H gs myId (saturateFrom W H gs myId s n)

/-- The (duplicate-free) list of all cells reachable from `s` through open
cells, `s` included: the saturation stabilises after at most `W*H + 5` steps
because at most `4 + W*H` cells besides `s` are ever reachable. -/
def reachList (W H : Nat) (gs : GameState) (myId : Option Nat) (s : Pos) : List Pos :=
  saturateFrom W H gs myId s (W * H + 6)

/-- Reachability from `s` through open cells, as an inductive predicate
(the specification of flood fill). -/
inductive Reaches (W H : Nat) (gs : GameState) (myId : Option Nat) (s : Pos) :
    Pos → Prop where
  | refl : Reaches W H gs myId s s
  | step {p q : Pos} : Reaches W H gs myId s p → q ∈ openNbrs W H gs myId p →
      Reaches W H gs myId s q

/-- All grid cells, row by row. -/
def gridList (W H : Nat) : List Pos :=
  (List.range W).flatMap (fun i =>
    (List.range H).map (fun j : Nat => (⟨(i : Int), (j : Int)⟩ : Pos)))

/-- Membership in the grid rectangle. -/
def inGrid (W H : Nat) (p : Pos) : Prop :=
  0 ≤ p.x ∧ p.x < (W : Int) ∧ 0 ≤ p.y ∧ p.y < (H : Int)

instance (W H : Nat) (p : Pos) : Decidable (inGrid W H p) := by
  unfold inGrid; infer_instance

/-- The widened rectangle containing every truncating-remainder output. -/
def inWide (W H : Nat) (p : Pos) : Prop :=
  -(W : Int) < p.x ∧ p.x < (W : Int) ∧ -(H : Int) < p.y ∧ p.y < (H : Int)

/-- The raw (unwrapped) one-step neighbours of a cell. -/
def rawNbrs (W H : Nat) (wallMode : Bool) (p : Pos) : List Pos :=
  moveOrder.map (fun m => getNextCoord W H p m wallMode)

/-- The sequential form of the player loop of `processNPCInputs`: one output
player per input player, with the agents and the random stream threaded
left to right. -/
def processSeq (W H : Nat) (gs : GameState) :
    List Player → List NPC → List ℚ → List Player × List NPC × List ℚ
  | [], npcs, rng => ([], npcs, rng)
  | player :: rest, npcs, rng =>
    let step := processOne W H gs npcs rng player
    let tail := processSeq W H gs rest step.2.1 step.2.2
    (step.1 :: tail.1, tail.2.1, tail.2.2)

/-- C1 counterexample scenario: a 7 by 21 walled board split by a wall of
snake segments along row 5 with the head at the only gap.  The snake has 101
segments, so the survival-mode flood fill (capped at 100) cannot certify any
move, and the tail-chase tie-break picks `up` into the 35-cell upper region
even though `down` reaches over 101 cells. -/
def c1Snake : List Pos :=
  ⟨3, 5⟩ :: ([⟨0, 5⟩, ⟨1, 5⟩, ⟨2, 5⟩, ⟨4, 5⟩, ⟨5, 5⟩, ⟨6, 5⟩] ++
    List.replicate 94 ⟨0, 5⟩)

def c1Player : Player := ⟨1, true, true, c1Snake, .left, .left⟩

def c1GS : GameState := ⟨true, [c1Player], []⟩

def c1NPC : NPC := ⟨1, "b", .hard, none, 0⟩

/-- Witness scenario for the amended C1: a short snake on an open 10 by 10
walled board, stored tier hard, no food (so the policy is in survival mode). -/
def c1wPlayer : Player := ⟨1, true, true, [⟨5, 5⟩, ⟨5, 6⟩], .up, .up⟩

def c1wGS : GameState := ⟨true, [c1wPlayer], []⟩

def c1wNPC : NPC := ⟨1, "b", .hard, none, 0⟩

/-- The food test of the BFS loop, applied to a cell. -/
def isFoodCell (gs : GameState) (p : Pos) : Bool :=
  gs.food.any (fun f => f.x == p.x && f.y == p.y)

/-- Soundness of a BFS queue entry: its first move steps to an open cell,
its cell lies at walk distance `dist - 1` from that first cell (so `dist`
from the head through the recorded first move), at walk distance `dist` from
the head, and at no smaller positive walk distance (entries record exact BFS
distances). -/
def entrySound (W H : Nat) (gs : GameState) (myId : Option Nat) (head : Pos)
    (e : QEntry) : Prop :=
  isOccupied W H (getNextCoord W H head e.firstMove gs.wallMode) gs myId = false ∧
  e.pos ∈ layersFrom W H gs myId (getNextCoord W H head e.firstMove gs.wallMode) (e.dist - 1) ∧
  e.pos ∈ layersFrom W H gs myId head e.dist ∧
  (∀ n : Nat, 1 ≤ n → n < e.dist → e.pos ∉ layersFrom W H gs myId head n)

/-- The BFS loop invariant at processing level `d`: the queue splits into the
level-`d` part `Q1` and the level-`d+1` part `Q2`, all entries sound; every
cell at exact distance `d+1` is enqueued in `Q2` or adjacent to an
unprocessed `Q1` cell; the visited set holds exactly the cells within
distance `d` plus the `Q2` positions, covers every cell within distance `d`,
contains every queued position, is duplicate-free and bounded; if the level
has reached `dstar`, a food entry is still queued; and the fuel dominates
the remaining work. -/
def BfsInv (W H : Nat) (gs : GameState) (myId : Option Nat) (head : Pos) (dstar : Nat)
    (d : Nat) (Q1 Q2 : List QEntry) (V : List Pos) (fuel : Nat) : Prop :=
  1 ≤ d ∧
  (∀ e ∈ Q1, e.dist = d ∧ entrySound W H gs myId head e) ∧
  (∀ e ∈ Q2, e.dist = d + 1 ∧ entrySound W H gs myId head e) ∧
  (∀ p : Pos, p ∈ layersFrom W H gs myId head (d + 1) →
    (∀ n : Nat, 1 ≤ n → n ≤ d → p ∉ layersFrom W H gs myId head n) →
    (∃ e ∈ Q2, e.pos = p) ∨ ∃ e ∈ Q1, p ∈ openNbrs W H gs myId e.pos) ∧
  (∀ p ∈ V, (∃ n : Nat, 1 ≤ n ∧ n ≤ d ∧ p ∈ layersFrom W H gs myId head n) ∨
    ∃ e ∈ Q2, e.pos = p) ∧
  (∀ (p : Pos) (n : Nat), 1 ≤ n → n ≤ d → p ∈ layersFrom W H gs myId head n → p ∈ V) ∧
  (∀ e ∈ Q1, e.pos ∈ V) ∧
  (∀ e ∈ Q2, e.pos ∈ V) ∧
  (d = dstar → ∃ e ∈ Q1, isFoodCell gs e.pos = true) ∧
  (Q1.length + Q2.length + (W * H + 5) ≤ fuel + V.length) ∧
  V.Nodup ∧
  (∀ p ∈ V, p ∈ head :: (rawNbrs W H gs.wallMode head ++ gridList W H))

/-- Witness scenario for C3: an empty walled 10 by 10 board, head at (5,5),
one food at (5,0), shortest distance 5. -/
def c3wGS : GameState := ⟨true, [], [⟨5, 0⟩]⟩

/-! ## Basic lemmas -/

/-- The floor of `r * n` (`Math.floor(Math.random() * safeMoves.length)`)
equals floor division of `r.num * n` by the positive denominator `r.den`;
this justifies the representation used in `chooseMove`. -/
theorem floor_mul_natCast (r : ℚ) (n : ℕ) : ⌊r * (n : ℚ)⌋ = (r.num * n).fdiv r.den := by
  rw [Int.fdiv_eq_ediv _ (Int.natCast_nonneg r.den)]
  have h : r * (n : ℚ) = ((r.num * n : ℤ) : ℚ) / ((r.den : ℕ) : ℚ) := by
    conv_lhs => rw [← Rat.num_div_den r]
    push_cast
    ring
  rw [h, Rat.floor_intCast_div_natCast]

@[simp]
theorem coordBeq_iff (s pos : Pos) : ((s.x == pos.x) && (s.y == pos.y)) = true ↔ s = pos := by
  cases s; cases pos
  simp [Pos.mk.injEq]

/-- The per-player body of `isOccupied` hits a nonempty snake exactly when
the queried position is one of its segments (tail included). -/
theorem snakeHit_iff (l : List Pos) (hne : l ≠ []) (pos : Pos) :
    (l.dropLast.any (fun s => s.x == pos.x && s.y == pos.y)
      || (match l.getLast? with
          | some tail => tail.x == pos.x && tail.y == pos.y
          | none => false)) = true ↔ pos ∈ l := by
  rw [List.getLast?_eq_getLast l hne]
  constructor
  · intro h
    simp only [Bool.or_eq_true, List.any_eq_true] at h
    rcases h with ⟨s, hs, hsp⟩ | h
    · exact (coordBeq_iff s pos).mp hsp ▸ List.dropLast_subset l hs
    · exact (coordBeq_iff _ pos).mp h ▸ List.getLast_mem hne
  · intro hmem
    rw [← List.dropLast_append_getLast hne, List.mem_append, List.mem_singleton] at hmem
    simp only [Bool.or_eq_true, List.any_eq_true]
    rcases hmem with h | h
    · exact Or.inl ⟨pos, h, (coordBeq_iff pos pos).mpr rfl⟩
    · exact Or.inr ((coordBeq_iff _ _).mpr h.symm)

/-! ## C7: characterisation of the occupancy oracle -/

/-- C7.  `isOccupied` returns blocked iff the position is out of bounds under
walled topology, or some living player's snake occupies the cell with any
segment (tail included); dead players' snakes and empty in-bounds cells are
not blocked.  The hypothesis is the spec's data-model invariant (a living
player's snake is nonempty); without it the source itself would throw. -/
theorem claim7_isOccupied_iff (W H : Nat) (pos : Pos) (gs : GameState) (myId : Option Nat)
    (hWF : ∀ p ∈ gs.players, p.isAlive = true → p.snake ≠ []) :
    isOccupied W H pos gs myId = true ↔
      (gs.wallMode = true ∧
        (pos.x < 0 ∨ (W : Int) ≤ pos.x ∨ pos.y < 0 ∨ (H : Int) ≤ pos.y))
      ∨ ∃ p ∈ gs.players, p.isAlive = true ∧ pos ∈ p.snake := by
  unfold isOccupied
  rw [Bool.or_eq_true, Bool.and_eq_true, List.any_eq_true]
  constructor
  · rintro (⟨hw, hb⟩ | ⟨p, hp, hbody⟩)
    · refine Or.inl ⟨hw, ?_⟩
      simpa [or_assoc] using hb
    · rw [Bool.and_eq_true] at hbody
      obtain ⟨hal, hrest⟩ := hbody
      exact Or.inr ⟨p, hp, hal, (snakeHit_iff p.snake (hWF p hp hal) pos).mp hrest⟩
  · rintro (⟨hw, hb⟩ | ⟨p, hp, hal, hmem⟩)
    · refine Or.inl ⟨hw, ?_⟩
      simpa [or_assoc] using hb
    · refine Or.inr ⟨p, hp, ?_⟩
      beta_reduce
      rw [Bool.and_eq_true]
      exact ⟨hal, (snakeHit_iff p.snake (hWF p hp hal) pos).mpr hmem⟩

/-- Witness for C7 at a concrete state: a cell occupied by a living snake's
tail is blocked, as the characterisation demands. -/
theorem claim7_isOccupied_iff_witness :
    isOccupied 10 10 ⟨2, 3⟩
        ⟨true, [⟨1, true, true, [⟨2, 2⟩, ⟨2, 3⟩], .up, .up⟩], []⟩ (some 1) = true ↔
      ((true : Bool) = true ∧
        ((2 : Int) < 0 ∨ (10 : Int) ≤ 2 ∨ (3 : Int) < 0 ∨ (10 : Int) ≤ 3))
      ∨ ∃ p ∈ [(⟨1, true, true, [⟨2, 2⟩, ⟨2, 3⟩], .up, .up⟩ : Player)],
          p.isAlive = true ∧ (⟨2, 3⟩ : Pos) ∈ p.snake :=
  claim7_isOccupied_iff 10 10 ⟨2, 3⟩
    ⟨true, [⟨1, true, true, [⟨2, 2⟩, ⟨2, 3⟩], .up, .up⟩], []⟩ (some 1) (by decide)

/-! ## Agent-update lemmas shared by C8 and C9 -/

/-- `decideNPCMove` only ever rewrites the agent's `decisionDelay`. -/
theorem decideNPCMove_npc_eq (W H : Nat) (npc : NPC) (gs : GameState) (player : Player)
    (rng : List ℚ) :
    ∃ k, (decideNPCMove W H npc gs player rng).2.1 = { npc with decisionDelay := k } := by
  unfold decideNPCMove
  cases hA : player.isAlive
  · exact ⟨npc.decisionDelay, rfl⟩
  · cases hS : player.snake
    · exact ⟨npc.decisionDelay, rfl⟩
    · simp only []
      split
      · exact ⟨npc.decisionDelay - 1, rfl⟩
      · split
        · exact ⟨(getDifficultySettings (effDifficulty npc player)).reactionDelayFrames, rfl⟩
        · exact ⟨(getDifficultySettings (effDifficulty npc player)).reactionDelayFrames, rfl⟩

/-- In a list of agents with pairwise distinct ids, any member whose id
matches a successful `find?` is the found agent itself. -/
theorem find?_id_unique {npcs : List NPC} {pid : Nat} {npc n : NPC}
    (hids : (npcs.map NPC.id).Nodup)
    (hfind : npcs.find? (fun x => x.id == pid) = some npc)
    (hn : n ∈ npcs) (hid : n.id = pid) : n = npc := by
  have h1 : npc ∈ npcs := List.mem_of_find?_eq_some hfind
  have h2 : npc.id = pid := by simpa using List.find?_some hfind
  exact List.inj_on_of_nodup_map hids hn h1 (by rw [hid, h2])

/-- The agent list after one player's processing: either untouched, or the
found agent is replaced (under its id) by a copy with a new delay. -/
theorem processOne_npcs_eq (W H : Nat) (gs : GameState) (npcs : List NPC) (rng : List ℚ)
    (player : Player) :
    (processOne W H gs npcs rng player).2.1 = npcs
    ∨ ∃ npc k, npcs.find? (fun x => x.id == player.id) = some npc ∧
        (processOne W H gs npcs rng player).2.1 =
          npcs.map (fun x =>
            if x.id == player.id then { npc with decisionDelay := k } else x) := by
  unfold processOne
  split
  · exact Or.inl rfl
  · cases hfind : npcs.find? (fun n => n.id == player.id) with
    | none => exact Or.inl rfl
    | some npc =>
      right
      obtain ⟨k, hk⟩ := decideNPCMove_npc_eq W H npc gs player rng
      refine ⟨npc, k, rfl, ?_⟩
      simp only [hk]
      split
      · rfl
      · split <;> rfl

/-- Processing one player never changes the id sequence of the agent list. -/
theorem processOne_npc_ids (W H : Nat) (gs : GameState) (npcs : List NPC) (rng : List ℚ)
    (player : Player) :
    (processOne W H gs npcs rng player).2.1.map NPC.id = npcs.map NPC.id := by
  rcases processOne_npcs_eq W H gs npcs rng player with h | ⟨npc, k, hfind, h⟩
  · rw [h]
  · rw [h, List.map_map]
    refine List.map_congr_left fun x _ => ?_
    by_cases hx : (x.id == player.id) = true
    · have hnpc : npc.id = player.id := by simpa using List.find?_some hfind
      simp [Function.comp, hx, hnpc]
      exact (by simpa using hx : x.id = player.id).symm ▸ hnpc.symm ▸ rfl
    · simp [Function.comp, hx]

/-- Pointwise frame of one player's processing on the agent list: every
agent keeps its id, name, stored difficulty and target food. -/
theorem processOne_npc_frame (W H : Nat) (gs : GameState) (npcs : List NPC) (rng : List ℚ)
    (player : Player) (hids : (npcs.map NPC.id).Nodup) :
    ∀ (i : Nat) (n : NPC), npcs[i]? = some n →
      ∃ n' : NPC, (processOne W H gs npcs rng player).2.1[i]? = some n' ∧
        n'.id = n.id ∧ n'.name = n.name ∧ n'.difficulty = n.difficulty ∧
        n'.targetFood = n.targetFood := by
  intro i n hi
  rcases processOne_npcs_eq W H gs npcs rng player with h | ⟨npc, k, hfind, h⟩
  · exact ⟨n, by rw [h, hi], rfl, rfl, rfl, rfl⟩
  · have hmap : (processOne W H gs npcs rng player).2.1[i]? =
        some (if (n.id == player.id) = true
              then { npc with decisionDelay := k } else n) := by
      rw [h, List.getElem?_map, hi, Option.map_some']
    by_cases hx : (n.id == player.id) = true
    · have hmem : n ∈ npcs := List.getElem?_mem hi
      have hn : n = npc := find?_id_unique hids hfind hmem (by simpa using hx)
      subst hn
      rw [if_pos hx] at hmap
      exact ⟨{ n with decisionDelay := k }, hmap, rfl, rfl, rfl, rfl⟩
    · rw [if_neg hx] at hmap
      exact ⟨n, hmap, rfl, rfl, rfl, rfl⟩

/-- Pointwise frame of the whole player loop on the agent list. -/
theorem processSeq_npc_frame (W H : Nat) (gs : GameState) :
    ∀ (players : List Player) (npcs : List NPC) (rng : List ℚ),
      (npcs.map NPC.id).Nodup →
      ∀ (i : Nat) (n : NPC), npcs[i]? = some n →
        ∃ n' : NPC, (processSeq W H gs players npcs rng).2.1[i]? = some n' ∧
          n'.id = n.id ∧ n'.name = n.name ∧ n'.difficulty = n.difficulty ∧
          n'.targetFood = n.targetFood := by
  intro players
  induction players with
  | nil => exact fun npcs rng _ i n hi => ⟨n, hi, rfl, rfl, rfl, rfl⟩
  | cons p rest ih =>
    intro npcs rng hids i n hi
    obtain ⟨n', hn', h1, h2, h3, h4⟩ := processOne_npc_frame W H gs npcs rng p hids i n hi
    have hids' : ((processOne W H gs npcs rng p).2.1.map NPC.id).Nodup := by
      rw [processOne_npc_ids]; exact hids
    obtain ⟨n'', hn'', g1, g2, g3, g4⟩ :=
      ih (processOne W H gs npcs rng p).2.1 (processOne W H gs npcs rng p).2.2 hids' i n' hn'
    exact ⟨n'', hn'', g1.trans h1, g2.trans h2, g3.trans h3, g4.trans h4⟩

/-- `processNPCInputs` in terms of the sequential player loop. -/
theorem processNPCInputs_eq (W H : Nat) (gs : GameState) (npcs : List NPC) (rng : List ℚ) :
    processNPCInputs W H gs npcs rng =
      ({ gs with players := (processSeq W H gs gs.players npcs rng).1 },
       (processSeq W H gs gs.players npcs rng).2) := by
  have key : ∀ (ps : List Player) (acc : List Player) (ns : List NPC) (r : List ℚ),
      ps.foldl
        (fun (acc : List Player × List NPC × List ℚ) player =>
          let step := processOne W H gs acc.2.1 acc.2.2 player
          (acc.1 ++ [step.1], step.2.1, step.2.2))
        (acc, ns, r)
      = (acc ++ (processSeq W H gs ps ns r).1, (processSeq W H gs ps ns r).2) := by
    intro ps
    induction ps with
    | nil => intro acc ns r; simp [processSeq]
    | cons p rest ih =>
      intro acc ns r
      simp only [List.foldl_cons, processSeq, ih, List.append_assoc, List.singleton_append]
  unfold processNPCInputs
  rw [key gs.players [] npcs rng]
  rfl

/-! ## C8: dynamic re-tiering -/

/-- C8.  The effective tier equals: middle when the stored tier is easy and
the snake is longer than 20; top when the stored tier is medium and the snake
is longer than 30; the stored tier otherwise — and neither `decideNPCMove`
nor `processNPCInputs` ever mutates the stored difficulty field. -/
theorem claim8_effective_tier (W H : Nat) (npc : NPC) (gs : GameState) (player : Player)
    (rng : List ℚ) (npcs : List NPC) (hids : (npcs.map NPC.id).Nodup) :
    (npc.difficulty = .easy →
      effDifficulty npc player = (if 20 < player.snake.length then .medium else .easy))
    ∧ (npc.difficulty = .medium →
      effDifficulty npc player = (if 30 < player.snake.length then .hard else .medium))
    ∧ (npc.difficulty ≠ .easy → npc.difficulty ≠ .medium →
      effDifficulty npc player = npc.difficulty)
    ∧ (decideNPCMove W H npc gs player rng).2.1.difficulty = npc.difficulty
    ∧ ∀ (i : Nat) (n : NPC), npcs[i]? = some n →
        ∃ n' : NPC, (processNPCInputs W H gs npcs rng).2.1[i]? = some n' ∧
          n'.difficulty = n.difficulty := by
  refine ⟨?_, ?_, ?_, ?_, ?_⟩
  · intro hd
    simp [effDifficulty, hd]
  · intro hd
    simp [effDifficulty, hd]
  · intro h1 h2
    simp [effDifficulty, h1, h2]
  · obtain ⟨k, hk⟩ := decideNPCMove_npc_eq W H npc gs player rng
    rw [hk]
  · intro i n hi
    rw [processNPCInputs_eq]
    obtain ⟨n', hn', _, _, h3, _⟩ :=
      processSeq_npc_frame W H gs gs.players npcs rng hids i n hi
    exact ⟨n', hn', h3⟩

/-- Witness for C8 at a concrete input (an easy bot of snake length 21 is
decided at the middle tier, its stored tier untouched). -/
theorem claim8_effective_tier_witness :
    let npc : NPC := ⟨1, "b", .easy, none, 0⟩
    let player : Player := ⟨1, true, true, List.replicate 21 (⟨0, 0⟩ : Pos), .up, .up⟩
    let gs : GameState := ⟨true, [player], []⟩
    (npc.difficulty = .easy →
      effDifficulty npc player = (if 20 < player.snake.length then .medium else .easy))
    ∧ (npc.difficulty = .medium →
      effDifficulty npc player = (if 30 < player.snake.length then .hard else .medium))
    ∧ (npc.difficulty ≠ .easy → npc.difficulty ≠ .medium →
      effDifficulty npc player = npc.difficulty)
    ∧ (decideNPCMove 10 10 npc gs player [1, 1]).2.1.difficulty = npc.difficulty
    ∧ ∀ (i : Nat) (n : NPC), [npc][i]? = some n →
        ∃ n' : NPC, (processNPCInputs 10 10 gs [npc] [1, 1]).2.1[i]? = some n' ∧
          n'.difficulty = n.difficulty :=
  claim8_effective_tier 10 10 ⟨1, "b", .easy, none, 0⟩
    ⟨true, [⟨1, true, true, List.replicate 21 (⟨0, 0⟩ : Pos), .up, .up⟩], []⟩
    ⟨1, true, true, List.replicate 21 (⟨0, 0⟩ : Pos), .up, .up⟩ [1, 1]
    [⟨1, "b", .easy, none, 0⟩] (by decide)

/-! ## C6: determinism of the tick entry point -/

/-- C6.  Two invocations of `processNPCInputs`, each starting from the same
game state, the same agent states and the same seeded random stream, produce
the same proposed direction for every bot (and the same outputs overall):
the embedding is a pure function of the explicitly passed state, mirroring a
source whose only ambient input, `Math.random()`, is the modelled stream. -/
theorem claim6_determinism (W H : Nat) (gs1 gs2 : GameState) (npcs1 npcs2 : List NPC)
    (rng1 rng2 : List ℚ) (hgs : gs1 = gs2) (hnpcs : npcs1 = npcs2) (hrng : rng1 = rng2) :
    ((processNPCInputs W H gs1 npcs1 rng1).1.players.map Player.nextDirection =
      (processNPCInputs W H gs2 npcs2 rng2).1.players.map Player.nextDirection)
    ∧ processNPCInputs W H gs1 npcs1 rng1 = processNPCInputs W H gs2 npcs2 rng2 := by
  subst hgs; subst hnpcs; subst hrng
  exact ⟨rfl, rfl⟩

/-- Witness for C6 at a concrete state. -/
theorem claim6_determinism_witness :
    ((processNPCInputs 10 10 ⟨true, [⟨1, true, true, [⟨5, 5⟩], .up, .up⟩], [⟨5, 0⟩]⟩
        [⟨1, "b", .hard, none, 0⟩] [1]).1.players.map Player.nextDirection =
      (processNPCInputs 10 10 ⟨true, [⟨1, true, true, [⟨5, 5⟩], .up, .up⟩], [⟨5, 0⟩]⟩
        [⟨1, "b", .hard, none, 0⟩] [1]).1.players.map Player.nextDirection)
    ∧ processNPCInputs 10 10 ⟨true, [⟨1, true, true, [⟨5, 5⟩], .up, .up⟩], [⟨5, 0⟩]⟩
        [⟨1, "b", .hard, none, 0⟩] [1] =
      processNPCInputs 10 10 ⟨true, [⟨1, true, true, [⟨5, 5⟩], .up, .up⟩], [⟨5, 0⟩]⟩
        [⟨1, "b", .hard, none, 0⟩] [1] :=
  claim6_determinism 10 10 _ _ _ _ _ _ rfl rfl rfl

/-! ## Player-side lemmas shared by C2 and C9 -/

/-- One player's processing either leaves the player untouched or rewrites
only its pending direction, and then never to the reverse of its heading. -/
theorem processOne_player_eq (W H : Nat) (gs : GameState) (npcs : List NPC) (rng : List ℚ)
    (player : Player) :
    (processOne W H gs npcs rng player).1 = player ∨
    ∃ d : Dir, (processOne W H gs npcs rng player).1 = { player with nextDirection := d } ∧
      opposite d ≠ player.direction := by
  unfold processOne
  split
  · exact Or.inl rfl
  · cases hfind : npcs.find? (fun n => n.id == player.id) with
    | none => exact Or.inl rfl
    | some npc =>
      dsimp only
      split
      · exact Or.inl rfl
      · split
        · rename_i hcond
          exact Or.inr ⟨_, rfl, hcond⟩
        · exact Or.inl rfl

/-- A non-bot or dead player is skipped outright. -/
theorem processOne_skip (W H : Nat) (gs : GameState) (npcs : List NPC) (rng : List ℚ)
    (player : Player) (h : (!player.isNpc || !player.isAlive) = true) :
    processOne W H gs npcs rng player = (player, npcs, rng) := by
  unfold processOne
  rw [if_pos h]

/-- Pointwise description of the player outputs of the sequential loop. -/
theorem processSeq_player_frame (W H : Nat) (gs : GameState) :
    ∀ (players : List Player) (npcs : List NPC) (rng : List ℚ) (i : Nat) (p : Player),
      players[i]? = some p →
      ∃ p' : Player, (processSeq W H gs players npcs rng).1[i]? = some p' ∧
        (p' = p ∨ ∃ d : Dir, p' = { p with nextDirection := d } ∧ opposite d ≠ p.direction) ∧
        ((!p.isNpc || !p.isAlive) = true → p' = p) := by
  intro players
  induction players with
  | nil =>
    intro npcs rng i p hp
    simp at hp
  | cons q rest ih =>
    intro npcs rng i p hp
    cases i with
    | zero =>
      have hq : q = p := by simpa using hp
      subst hq
      refine ⟨(processOne W H gs npcs rng q).1, by simp [processSeq], ?_, ?_⟩
      · exact processOne_player_eq W H gs npcs rng q
      · intro hskip
        rw [processOne_skip W H gs npcs rng q hskip]
    | succ j =>
      have hp' : rest[j]? = some p := by simpa using hp
      obtain ⟨p', h1, h2, h3⟩ :=
        ih (processOne W H gs npcs rng q).2.1 (processOne W H gs npcs rng q).2.2 j p hp'
      exact ⟨p', by simpa [processSeq] using h1, h2, h3⟩

/-- The player loop emits exactly one output player per input player. -/
theorem processSeq_length (W H : Nat) (gs : GameState) :
    ∀ (players : List Player) (npcs : List NPC) (rng : List ℚ),
      (processSeq W H gs players npcs rng).1.length = players.length := by
  intro players
  induction players with
  | nil => intro npcs rng; rfl
  | cons q rest ih =>
    intro npcs rng
    simpa [processSeq] using ih _ _

/-! ## C2: the reversal invariant -/

/-- C2.  Whenever the tick dispatcher writes a pending next direction for a
player, the written direction is not the exact opposite of the player's
pre-tick heading; a proposal that is the exact opposite leaves the pending
direction unchanged.  Holds for every tier and game state (the theorem
quantifies over all of them, in particular those with a safe move). -/
theorem claim2_no_reversal (W H : Nat) (gs : GameState) (npcs : List NPC) (rng : List ℚ)
    (i : Nat) (p p' : Player) (hp : gs.players[i]? = some p)
    (hp' : (processNPCInputs W H gs npcs rng).1.players[i]? = some p') :
    p'.nextDirection = p.nextDirection ∨ p'.nextDirection ≠ opposite p.direction := by
  rw [processNPCInputs_eq] at hp'
  obtain ⟨q, hq, hcases, _⟩ := processSeq_player_frame W H gs gs.players npcs rng i p hp
  have hqp : q = p' := by
    rw [hq] at hp'
    exact Option.some.inj hp'
  subst hqp
  rcases hcases with rfl | ⟨d, rfl, hd⟩
  · exact Or.inl rfl
  · right
    show d ≠ opposite p.direction
    intro hcontra
    exact hd (by rw [hcontra]; cases p.direction <;> rfl)

/-- Witness for C2: the hard bot of the spec scenario proposes `up`, which is
committed because it does not reverse the heading. -/
theorem claim2_no_reversal_witness :
    (⟨1, true, true, [⟨5, 5⟩], .up,
        .up⟩ : Player).nextDirection = (⟨1, true, true, [⟨5, 5⟩], .up, .up⟩ : Player).nextDirection
    ∨ (⟨1, true, true, [⟨5, 5⟩], .up, .up⟩ : Player).nextDirection ≠
        opposite (⟨1, true, true, [⟨5, 5⟩], .up, .up⟩ : Player).direction :=
  claim2_no_reversal 10 10 ⟨true, [⟨1, true, true, [⟨5, 5⟩], .up, .up⟩], [⟨5, 0⟩]⟩
    [⟨1, "b", .hard, none, 0⟩] [1] 0 ⟨1, true, true, [⟨5, 5⟩], .up, .up⟩
    ⟨1, true, true, [⟨5, 5⟩], .up, .up⟩ (by decide) (by decide)

/-! ## C9: frame property of the tick entry point -/

/-- C9.  `processNPCInputs` changes nothing except, per bot, its agent's
`decisionDelay` and its player's pending `nextDirection`: the topology flag,
the food set, every snake, alive flag, current direction and identity are
unchanged (players are even preserved positionally), non-bot or dead players
are untouched entirely, and every agent keeps its id, name, difficulty and
target food.  The id-uniqueness hypothesis reflects that the source keeps
the agents in a `Map` keyed by player id. -/
theorem claim9_frame (W H : Nat) (gs : GameState) (npcs : List NPC) (rng : List ℚ)
    (hids : (npcs.map NPC.id).Nodup) :
    (processNPCInputs W H gs npcs rng).1.wallMode = gs.wallMode
    ∧ (processNPCInputs W H gs npcs rng).1.food = gs.food
    ∧ (processNPCInputs W H gs npcs rng).1.players.length = gs.players.length
    ∧ (∀ (i : Nat) (p : Player), gs.players[i]? = some p →
        ∃ p' : Player, (processNPCInputs W H gs npcs rng).1.players[i]? = some p' ∧
          p'.id = p.id ∧ p'.isNpc = p.isNpc ∧ p'.isAlive = p.isAlive ∧
          p'.snake = p.snake ∧ p'.direction = p.direction ∧
          ((p.isNpc = false ∨ p.isAlive = false) → p' = p))
    ∧ (∀ (i : Nat) (n : NPC), npcs[i]? = some n →
        ∃ n' : NPC, (processNPCInputs W H gs npcs rng).2.1[i]? = some n' ∧
          n'.id = n.id ∧ n'.name = n.name ∧ n'.difficulty = n.difficulty ∧
          n'.targetFood = n.targetFood) := by
  rw [processNPCInputs_eq]
  refine ⟨rfl, rfl, processSeq_length W H gs gs.players npcs rng, ?_, ?_⟩
  · intro i p hp
    obtain ⟨p', hp', hcases, hskip⟩ :=
      processSeq_player_frame W H gs gs.players npcs rng i p hp
    refine ⟨p', hp', ?_⟩
    have hfields : p'.id = p.id ∧ p'.isNpc = p.isNpc ∧ p'.isAlive = p.isAlive ∧
        p'.snake = p.snake ∧ p'.direction = p.direction := by
      rcases hcases with rfl | ⟨d, rfl, _⟩
      · exact ⟨rfl, rfl, rfl, rfl, rfl⟩
      · exact ⟨rfl, rfl, rfl, rfl, rfl⟩
    refine ⟨hfields.1, hfields.2.1, hfields.2.2.1, hfields.2.2.2.1, hfields.2.2.2.2, ?_⟩
    intro hdead
    apply hskip
    rcases hdead with h | h <;> simp [h]
  · exact fun i n hn => processSeq_npc_frame W H gs gs.players npcs rng hids i n hn

/-- Witness for C9 at the concrete spec scenario. -/
theorem claim9_frame_witness :
    let gs : GameState := ⟨true, [⟨1, true, true, [⟨5, 5⟩], .up, .up⟩], [⟨5, 0⟩]⟩
    let npcs : List NPC := [⟨1, "b", .hard, none, 0⟩]
    (processNPCInputs 10 10 gs npcs [1]).1.wallMode = gs.wallMode
    ∧ (processNPCInputs 10 10 gs npcs [1]).1.food = gs.food
    ∧ (processNPCInputs 10 10 gs npcs [1]).1.players.length = gs.players.length
    ∧ (∀ (i : Nat) (p : Player), gs.players[i]? = some p →
        ∃ p' : Player, (processNPCInputs 10 10 gs npcs [1]).1.players[i]? = some p' ∧
          p'.id = p.id ∧ p'.isNpc = p.isNpc ∧ p'.isAlive = p.isAlive ∧
          p'.snake = p.snake ∧ p'.direction = p.direction ∧
          ((p.isNpc = false ∨ p.isAlive = false) → p' = p))
    ∧ (∀ (i : Nat) (n : NPC), npcs[i]? = some n →
        ∃ n' : NPC, (processNPCInputs 10 10 gs npcs [1]).2.1[i]? = some n' ∧
          n'.id = n.id ∧ n'.name = n.name ∧ n'.difficulty = n.difficulty ∧
          n'.targetFood = n.targetFood) :=
  claim9_frame 10 10 ⟨true, [⟨1, true, true, [⟨5, 5⟩], .up, .up⟩], [⟨5, 0⟩]⟩
    [⟨1, "b", .hard, none, 0⟩] [1] (by decide)

/-! ## C10: every proposed direction is a safe move -/

theorem mem_of_head?_eq {α : Type} {l : List α} {d : α} (h : l.head? = some d) : d ∈ l := by
  cases l with
  | nil => cases h
  | cons x l =>
    have hx : x = d := Option.some.inj h
    exact hx ▸ List.mem_cons_self x l

/-- The space-maximising fold only ever selects its initial move or a member
of the traversed list. -/
theorem foldl_max_mem (f : Dir → Int) :
    ∀ (l : List Dir) (a : Option Dir × Int) (d : Dir),
      (l.foldl (fun acc mv =>
        if acc.2 < f mv then (some mv, f mv) else acc) a).1 = some d →
      a.1 = some d ∨ d ∈ l := by
  intro l
  induction l with
  | nil =>
    intro a d h
    exact Or.inl h
  | cons x xs ih =>
    intro a d h
    rw [List.foldl_cons] at h
    rcases ih _ d h with h' | h'
    · by_cases hc : a.2 < f x
      · rw [if_pos hc] at h'
        exact Or.inr (List.mem_cons.mpr (Or.inl (Option.some.inj h').symm))
      · rw [if_neg hc] at h'
        exact Or.inl h'
    · exact Or.inr (List.mem_cons_of_mem x h')

/-- The distance-minimising fold only ever selects its initial move or a
member of the traversed list. -/
theorem foldl_min_mem (g : Dir → Int) :
    ∀ (l : List Dir) (a : Option Dir × Option Int) (d : Dir),
      (l.foldl (fun acc mv =>
        match acc.2 with
        | none => (some mv, some (g mv))
        | some best => if g mv < best then (some mv, some (g mv)) else acc) a).1 = some d →
      a.1 = some d ∨ d ∈ l := by
  intro l
  induction l with
  | nil =>
    intro a d h
    exact Or.inl h
  | cons x xs ih =>
    intro a d h
    rw [List.foldl_cons] at h
    rcases ih _ d h with h' | h'
    · obtain ⟨a1, a2⟩ := a
      cases a2 with
      | none =>
        dsimp only at h'
        exact Or.inr (List.mem_cons.mpr (Or.inl (Option.some.inj h').symm))
      | some best =>
        dsimp only at h'
        by_cases hc : g x < best
        · rw [if_pos hc] at h'
          exact Or.inr (List.mem_cons.mpr (Or.inl (Option.some.inj h').symm))
        · rw [if_neg hc] at h'
          exact Or.inl h'
    · exact Or.inr (List.mem_cons_of_mem x h')

theorem survivalMove_mem (W H : Nat) (gs : GameState) (player : Player) (head : Pos)
    (safeMoves : List Dir) (d : Dir)
    (h : survivalMove W H gs player head safeMoves = some d) : d ∈ safeMoves := by
  unfold survivalMove at h
  dsimp only at h
  split at h
  · rcases foldl_max_mem _ safeMoves (none, -1) d h with h' | h'
    · cases h'
    · exact h'
  · split at h
    · rename_i tail heqtail
      split at h
      · rename_i move hchase
        have hc : (safeMoves.foldl (fun acc mv =>
            match acc.2 with
            | none => (some mv, some (wrappedDist W H gs.wallMode tail
                (getNextCoord W H head mv gs.wallMode)))
            | some best => if wrappedDist W H gs.wallMode tail
                  (getNextCoord W H head mv gs.wallMode) < best then
                (some mv, some (wrappedDist W H gs.wallMode tail
                  (getNextCoord W H head mv gs.wallMode)))
              else acc) ((none : Option Dir), (none : Option Int))).1 = some d :=
          hchase.trans (congrArg some (Option.some.inj h))
        rcases foldl_min_mem _ safeMoves (none, none) d hc with h' | h'
        · cases h'
        · exact h'
      · rcases foldl_max_mem _ safeMoves (none, -1) d h with h' | h'
        · cases h'
        · exact h'
    · rcases foldl_max_mem _ safeMoves (none, -1) d h with h' | h'
      · cases h'
      · exact h'

theorem hotColdMove_mem (W H : Nat) (gs : GameState) (head : Pos)
    (safeMoves : List Dir) (d : Dir)
    (h : hotColdMove W H gs head safeMoves = some d) : d ∈ safeMoves := by
  unfold hotColdMove at h
  dsimp only at h
  split at h
  · exact mem_of_head?_eq h
  · rcases foldl_min_mem _ safeMoves (safeMoves.head?, none) d h with h' | h'
    · exact mem_of_head?_eq h'
    · exact h'

theorem fallbackMove_mem (W H : Nat) (gs : GameState) (settings : DifficultySettings)
    (head : Pos) (currentDir : Dir) (safeMoves : List Dir) (rng : List ℚ) (d : Dir)
    (h : (fallbackMove W H gs settings head currentDir safeMoves rng).1 = some d) :
    d ∈ safeMoves := by
  unfold fallbackMove at h
  split at h
  · rename_i hcond
    dsimp only at h
    split at h
    · have hd : currentDir = d := Option.some.inj h
      rw [Bool.and_eq_true] at hcond
      exact hd ▸ List.elem_iff.mp hcond.2
    · exact hotColdMove_mem W H gs head safeMoves d h
  · exact hotColdMove_mem W H gs head safeMoves d h

theorem pathCommit_mem (W H : Nat) (gs : GameState) (player : Player)
    (settings : DifficultySettings) (head : Pos) (safeMoves : List Dir) (d : Dir)
    (h : pathCommit W H gs player settings head safeMoves = some d) : d ∈ safeMoves := by
  unfold pathCommit at h
  split at h
  · cases h
  · dsimp only at h
    split at h
    · rename_i hcontains
      split at h
      · split at h
        · exact (Option.some.inj h) ▸ List.elem_iff.mp hcontains
        · cases h
      · split at h
        · exact (Option.some.inj h) ▸ List.elem_iff.mp hcontains
        · cases h
    · cases h

theorem chooseMove_mem (W H : Nat) (gs : GameState) (player : Player)
    (settings : DifficultySettings) (head : Pos) (currentDir : Dir)
    (safeMoves : List Dir) (rng : List ℚ) (d : Dir)
    (h : (chooseMove W H gs player settings head currentDir safeMoves rng).1 = some d) :
    d ∈ safeMoves := by
  unfold chooseMove at h
  dsimp only at h
  split at h
  · split at h
    · exact List.getElem?_mem h
    · cases h
  · split at h
    · split at h
      · rename_i move hpc
        exact pathCommit_mem W H gs player settings head safeMoves d
          (hpc.trans (congrArg some (Option.some.inj h)))
      · split at h
        · exact survivalMove_mem W H gs player head safeMoves d h
        · exact fallbackMove_mem W H gs settings head currentDir safeMoves _ d h
    · exact fallbackMove_mem W H gs settings head currentDir safeMoves _ d h

/-- C10.  Every non-null direction returned by `decideNPCMove` — through the
error-injection, pathfinding-commit, survival, tail-chase, straight-preference
and hot/cold branches alike — is a member of the safe-move set of the current
head: its resulting cell is in bounds under walled topology and unblocked by
the occupancy oracle.  In particular the policy never proposes an immediately
lethal move, for any tier or game state. -/
theorem claim10_safety (W H : Nat) (npc : NPC) (gs : GameState) (player : Player)
    (rng : List ℚ) (d : Dir)
    (h : (decideNPCMove W H npc gs player rng).1 = some d) :
    d ∈ safeMovesOf W H gs player ∧
      ∀ (head : Pos) (tl : List Pos), player.snake = head :: tl →
        isMoveImmediatelySafe W H head d gs (some player.id) = true := by
  have hmem : d ∈ safeMovesOf W H gs player := by
    unfold decideNPCMove at h
    cases hA : player.isAlive
    · rw [hA] at h
      cases hS : player.snake
      · rw [hS] at h; cases h
      · rw [hS] at h; cases h
    · rw [hA] at h
      cases hS : player.snake with
      | nil => rw [hS] at h; cases h
      | cons head tl =>
        rw [hS] at h
        dsimp only at h
        split at h
        · cases h
        · split at h
          · cases h
          · unfold safeMovesOf
            rw [hS]
            exact chooseMove_mem W H gs player _ head player.direction _ rng d h
  refine ⟨hmem, ?_⟩
  intro head tl hsnake
  have hmem' : d ∈ safeMovesFrom W H gs head (some player.id) := by
    unfold safeMovesOf at hmem
    rw [hsnake] at hmem
    exact hmem
  exact (List.mem_filter.mp hmem').2

/-- Witness for C10 at the spec scenario: the proposed `up` is a safe move. -/
theorem claim10_safety_witness :
    Dir.up ∈ safeMovesOf 10 10 ⟨true, [⟨1, true, true, [⟨5, 5⟩], .up, .up⟩], [⟨5, 0⟩]⟩
        ⟨1, true, true, [⟨5, 5⟩], .up, .up⟩ ∧
      ∀ (head : Pos) (tl : List Pos),
        (⟨1, true, true, [⟨5, 5⟩], .up, .up⟩ : Player).snake = head :: tl →
        isMoveImmediatelySafe 10 10 head .up
          ⟨true, [⟨1, true, true, [⟨5, 5⟩], .up, .up⟩], [⟨5, 0⟩]⟩ (some 1) = true :=
  claim10_safety 10 10 ⟨1, "b", .hard, none, 0⟩
    ⟨true, [⟨1, true, true, [⟨5, 5⟩], .up, .up⟩], [⟨5, 0⟩]⟩
    ⟨1, true, true, [⟨5, 5⟩], .up, .up⟩ [1] .up (by decide)

/-! ## Reachability infrastructure (for C1, C3, C4, C5) -/

theorem mem_openNbrs_iff (W H : Nat) (gs : GameState) (myId : Option Nat) (p q : Pos) :
    q ∈ openNbrs W H gs myId p ↔
      (∃ m ∈ moveOrder, q = getNextCoord W H p m gs.wallMode) ∧
        isOccupied W H q gs myId = false := by
  unfold openNbrs isOpen
  rw [List.mem_filter]
  simp only [List.mem_map, Bool.not_eq_true']
  constructor
  · rintro ⟨⟨m, hm, rfl⟩, hocc⟩
    exact ⟨⟨m, hm, rfl⟩, hocc⟩
  · rintro ⟨⟨m, hm, rfl⟩, hocc⟩
    exact ⟨⟨m, hm, rfl⟩, hocc⟩

theorem mem_openNbrs_open (W H : Nat) (gs : GameState) (myId : Option Nat) {p q : Pos}
    (h : q ∈ openNbrs W H gs myId p) : isOccupied W H q gs myId = false :=
  ((mem_openNbrs_iff W H gs myId p q).mp h).2

theorem openNbrs_of_step (W H : Nat) (gs : GameState) (myId : Option Nat) (p : Pos)
    (m : Dir) (hm : m ∈ moveOrder)
    (hopen : isOccupied W H (getNextCoord W H p m gs.wallMode) gs myId = false) :
    getNextCoord W H p m gs.wallMode ∈ openNbrs W H gs myId p :=
  (mem_openNbrs_iff W H gs myId p _).mpr ⟨⟨m, hm, rfl⟩, hopen⟩

theorem every_dir_mem_moveOrder (m : Dir) : m ∈ moveOrder := by
  cases m <;> simp [moveOrder]

theorem mem_layersFrom_succ (W H : Nat) (gs : GameState) (myId : Option Nat)
    (s p : Pos) (n : Nat) :
    p ∈ layersFrom W H gs myId s (n + 1) ↔
      ∃ q ∈ layersFrom W H gs myId s n, p ∈ openNbrs W H gs myId q := by
  show p ∈ ((layersFrom W H gs myId s n).flatMap (openNbrs W H gs myId)).dedup ↔ _
  rw [List.mem_dedup, List.mem_flatMap]

theorem mem_layersFrom_zero (W H : Nat) (gs : GameState) (myId : Option Nat)
    (s p : Pos) : p ∈ layersFrom W H gs myId s 0 ↔ p = s := by
  show p ∈ [s] ↔ _
  simp

/-- Walks of every length exist exactly for reachable cells. -/
theorem reaches_iff_layer (W H : Nat) (gs : GameState) (myId : Option Nat) (s p : Pos) :
    Reaches W H gs myId s p ↔ ∃ n : Nat, p ∈ layersFrom W H gs myId s n := by
  constructor
  · intro h
    induction h with
    | refl => exact ⟨0, (mem_layersFrom_zero W H gs myId s s).mpr rfl⟩
    | step _ hq ih =>
      obtain ⟨n, hn⟩ := ih
      exact ⟨n + 1, (mem_layersFrom_succ W H gs myId s _ n).mpr ⟨_, hn, hq⟩⟩
  · rintro ⟨n, hn⟩
    induction n generalizing p with
    | zero =>
      rw [mem_layersFrom_zero] at hn
      exact hn ▸ Reaches.refl
    | succ k ih =>
      rw [mem_layersFrom_succ] at hn
      obtain ⟨q, hq, hnb⟩ := hn
      exact Reaches.step (ih q hq) hnb

theorem mem_expandOnce (W H : Nat) (gs : GameState) (myId : Option Nat)
    (l : List Pos) (p : Pos) :
    p ∈ expandOnce W H gs myId l ↔
      p ∈ l ∨ ∃ q ∈ l, p ∈ openNbrs W H gs myId q := by
  unfold expandOnce
  rw [List.mem_dedup, List.mem_append, List.mem_flatMap]

theorem saturateFrom_subset_succ (W H : Nat) (gs : GameState) (myId : Option Nat)
    (s : Pos) (n : Nat) :
    ∀ p, p ∈ saturateFrom W H gs myId s n → p ∈ saturateFrom W H gs myId s (n + 1) := by
  intro p hp
  show p ∈ expandOnce W H gs myId (saturateFrom W H gs myId s n)
  exact (mem_expandOnce W H gs myId _ p).mpr (Or.inl hp)

theorem mem_saturateFrom_iff (W H : Nat) (gs : GameState) (myId : Option Nat)
    (s : Pos) (n : Nat) (p : Pos) :
    p ∈ saturateFrom W H gs myId s n ↔
      ∃ k, k ≤ n ∧ p ∈ layersFrom W H gs myId s k := by
  induction n generalizing p with
  | zero =>
    show p ∈ [s] ↔ _
    constructor
    · intro hp
      exact ⟨0, le_refl 0, by simpa [mem_layersFrom_zero] using hp⟩
    · rintro ⟨k, hk, hp⟩
      interval_cases k
      simpa [mem_layersFrom_zero] using hp
  | succ m ih =>
    show p ∈ expandOnce W H gs myId (saturateFrom W H gs myId s m) ↔ _
    rw [mem_expandOnce]
    constructor
    · rintro (hp | ⟨q, hq, hnb⟩)
      · obtain ⟨k, hk, h⟩ := (ih p).mp hp
        exact ⟨k, le_trans hk (Nat.le_succ m), h⟩
      · obtain ⟨k, hk, h⟩ := (ih q).mp hq
        exact ⟨k + 1, Nat.succ_le_succ hk,
          (mem_layersFrom_succ W H gs myId s p k).mpr ⟨q, h, hnb⟩⟩
    · rintro ⟨k, hk, h⟩
      rcases Nat.lt_or_ge k (m + 1) with hlt | hge
      · exact Or.inl ((ih p).mpr ⟨k, Nat.lt_succ_iff.mp hlt, h⟩)
      · have hkm : k = m + 1 := le_antisymm hk hge
        subst hkm
        rw [mem_layersFrom_succ] at h
        obtain ⟨q, hq, hnb⟩ := h
        exact Or.inr ⟨q, (ih q).mpr ⟨m, le_refl m, hq⟩, hnb⟩

theorem mem_saturateFrom_reaches (W H : Nat) (gs : GameState) (myId : Option Nat)
    (s : Pos) (n : Nat) (p : Pos) (hp : p ∈ saturateFrom W H gs myId s n) :
    Reaches W H gs myId s p := by
  obtain ⟨k, _, h⟩ := (mem_saturateFrom_iff W H gs myId s n p).mp hp
  exact (reaches_iff_layer W H gs myId s p).mpr ⟨k, h⟩

theorem neg_lt_tmod (a : Int) (b : Nat) (hb : 0 < b) : -(b : Int) < Int.tmod a b := by
  cases a with
  | ofNat m =>
    have h0 : (0 : Int) ≤ Int.tmod (Int.ofNat m) b := Int.tmod_nonneg _ (Int.ofNat_nonneg m)
    omega
  | negSucc m =>
    show -(b : Int) < -(Int.ofNat (Nat.succ m % b))
    have hlt : Nat.succ m % b < b := Nat.mod_lt _ hb
    have hcast : Int.ofNat (Nat.succ m % b) = ((Nat.succ m % b : Nat) : Int) := rfl
    omega

theorem mem_gridList_iff (W H : Nat) (p : Pos) : p ∈ gridList W H ↔ inGrid W H p := by
  unfold gridList
  rw [List.mem_flatMap]
  constructor
  · rintro ⟨i, hi, hp⟩
    rw [List.mem_map] at hp
    obtain ⟨j, hj, hpj⟩ := hp
    rw [List.mem_range] at hi
    rw [List.mem_range] at hj
    subst hpj
    refine ⟨?_, ?_, ?_, ?_⟩
    · show (0 : Int) ≤ (i : Int)
      omega
    · show (i : Int) < (W : Int)
      omega
    · show (0 : Int) ≤ (j : Int)
      omega
    · show (j : Int) < (H : Int)
      omega
  · intro hp
    cases p with
    | mk x y =>
      obtain ⟨h1, h2, h3, h4⟩ := hp
      have h1' : (0 : Int) ≤ x := h1
      have h2' : x < (W : Int) := h2
      have h3' : (0 : Int) ≤ y := h3
      have h4' : y < (H : Int) := h4
      refine ⟨x.toNat, by rw [List.mem_range]; omega, ?_⟩
      rw [List.mem_map]
      refine ⟨y.toNat, by rw [List.mem_range]; omega, ?_⟩
      simp only [Pos.mk.injEq]
      constructor <;> omega

theorem gridList_length (W H : Nat) : (gridList W H).length = W * H := by
  unfold gridList
  rw [List.length_flatMap]
  have h1 : (List.map (List.length ∘ fun i : Nat =>
      (List.range H).map (fun j : Nat => (⟨(i : Int), (j : Int)⟩ : Pos))) (List.range W))
      = List.replicate W H := by
    refine List.eq_replicate_iff.mpr ⟨by simp, ?_⟩
    intro b hb
    rw [List.mem_map] at hb
    obtain ⟨i, _, hib⟩ := hb
    rw [← hib]
    simp [Function.comp]
  rw [h1, List.sum_replicate, smul_eq_mul]

/-- In wall mode an unblocked cell lies inside the grid. -/
theorem open_wall_inGrid (W H : Nat) (gs : GameState) (myId : Option Nat) (q : Pos)
    (hwall : gs.wallMode = true) (hopen : isOccupied W H q gs myId = false) :
    inGrid W H q := by
  unfold isOccupied at hopen
  rw [Bool.or_eq_false_iff] at hopen
  have h1 := hopen.1
  rw [hwall, Bool.true_and] at h1
  simp only [Bool.or_eq_false_iff, decide_eq_false_iff_not, not_lt, not_le] at h1
  unfold inGrid
  omega

/-- Each coordinate moves by at most one unit before wrapping. -/
theorem getNextCoord_wrap_inWide (W H : Nat) (hW : 0 < W) (hH : 0 < H) (p : Pos) (m : Dir) :
    inWide W H (getNextCoord W H p m false) := by
  unfold getNextCoord inWide
  refine ⟨neg_lt_tmod _ W hW, Int.tmod_lt_of_pos _ (by exact_mod_cast hW),
    neg_lt_tmod _ H hH, Int.tmod_lt_of_pos _ (by exact_mod_cast hH)⟩

/-- From a cell of the widened rectangle, a wrap-mode step lands in the grid. -/
theorem step_from_inWide_inGrid (W H : Nat) (hW : 0 < W) (hH : 0 < H) (p : Pos)
    (hp : inWide W H p) (m : Dir) : inGrid W H (getNextCoord W H p m false) := by
  obtain ⟨h1, h2, h3, h4⟩ := hp
  have hx : ∀ a : Int, -(W : Int) ≤ a → 0 ≤ Int.tmod (a + W) W ∧ Int.tmod (a + W) W < W :=
    fun a ha => ⟨Int.tmod_nonneg _ (by omega), Int.tmod_lt_of_pos _ (by exact_mod_cast hW)⟩
  have hy : ∀ a : Int, -(H : Int) ≤ a → 0 ≤ Int.tmod (a + H) H ∧ Int.tmod (a + H) H < H :=
    fun a ha => ⟨Int.tmod_nonneg _ (by omega), Int.tmod_lt_of_pos _ (by exact_mod_cast hH)⟩
  unfold getNextCoord inGrid
  cases m with
  | up => exact ⟨(hx p.x (by omega)).1, (hx p.x (by omega)).2,
      (hy (p.y - 1) (by omega)).1, (hy (p.y - 1) (by omega)).2⟩
  | down => exact ⟨(hx p.x (by omega)).1, (hx p.x (by omega)).2,
      (hy (p.y + 1) (by omega)).1, (hy (p.y + 1) (by omega)).2⟩
  | left => exact ⟨(hx (p.x - 1) (by omega)).1, (hx (p.x - 1) (by omega)).2,
      (hy p.y (by omega)).1, (hy p.y (by omega)).2⟩
  | right => exact ⟨(hx (p.x + 1) (by omega)).1, (hx (p.x + 1) (by omega)).2,
      (hy p.y (by omega)).1, (hy p.y (by omega)).2⟩

theorem inGrid_inWide (W H : Nat) (hW : 0 < W) (hH : 0 < H) (p : Pos)
    (hp : inGrid W H p) : inWide W H p := by
  obtain ⟨h1, h2, h3, h4⟩ := hp
  exact ⟨by omega, h2, by omega, h4⟩

theorem mem_rawNbrs_of_step (W H : Nat) (wallMode : Bool) (s : Pos) (m : Dir) :
    getNextCoord W H s m wallMode ∈ rawNbrs W H wallMode s := by
  unfold rawNbrs
  exact List.mem_map_of_mem _ (every_dir_mem_moveOrder m)

/-- Pushing an open step from a cell of the visited bound stays in the
visited bound. -/
theorem step_open_mem_visBound (W H : Nat) (gs : GameState) (myId : Option Nat) (s : Pos)
    (hW : 0 < W) (hH : 0 < H) {p q : Pos} (m : Dir)
    (hp : p ∈ s :: (rawNbrs W H gs.wallMode s ++ gridList W H))
    (hq : q = getNextCoord W H p m gs.wallMode)
    (hopen : isOccupied W H q gs myId = false) :
    q ∈ s :: (rawNbrs W H gs.wallMode s ++ gridList W H) := by
  cases hwall : gs.wallMode with
  | true =>
    rw [hwall] at hp
    have : inGrid W H q := open_wall_inGrid W H gs myId q hwall hopen
    exact List.mem_cons_of_mem _ (List.mem_append.mpr
      (Or.inr ((mem_gridList_iff W H q).mpr this)))
  | false =>
    rw [hwall] at hq hp
    rcases List.mem_cons.mp hp with rfl | hp'
    · exact List.mem_cons_of_mem _ (List.mem_append.mpr
        (Or.inl (hq ▸ mem_rawNbrs_of_step W H false p m)))
    · rcases List.mem_append.mp hp' with hraw | hgrid
      · obtain ⟨m', _, hm'⟩ := List.mem_map.mp hraw
        have hwide : inWide W H p := hm' ▸ getNextCoord_wrap_inWide W H hW hH s m'
        exact List.mem_cons_of_mem _ (List.mem_append.mpr (Or.inr
          ((mem_gridList_iff W H q).mpr (hq ▸ step_from_inWide_inGrid W H hW hH p hwide m))))
      · have hwide : inWide W H p :=
          inGrid_inWide W H hW hH p ((mem_gridList_iff W H p).mp hgrid)
        exact List.mem_cons_of_mem _ (List.mem_append.mpr (Or.inr
          ((mem_gridList_iff W H q).mpr (hq ▸ step_from_inWide_inGrid W H hW hH p hwide m))))

theorem visBound_length (W H : Nat) (gs : GameState) (s : Pos) :
    (s :: (rawNbrs W H gs.wallMode s ++ gridList W H)).length = W * H + 5 := by
  simp [rawNbrs, moveOrder, gridList_length]

theorem saturateFrom_mem_visBound (W H : Nat) (gs : GameState) (myId : Option Nat)
    (s : Pos) (hW : 0 < W) (hH : 0 < H) :
    ∀ (n : Nat) (p : Pos), p ∈ saturateFrom W H gs myId s n →
      p ∈ s :: (rawNbrs W H gs.wallMode s ++ gridList W H) := by
  intro n
  induction n with
  | zero =>
    intro p hp
    have : p = s := by simpa [saturateFrom] using hp
    exact this ▸ List.mem_cons_self _ _
  | succ k ih =>
    intro p hp
    rcases (mem_expandOnce W H gs myId _ p).mp hp with hp' | ⟨q, hq, hnb⟩
    · exact ih p hp'
    · obtain ⟨⟨m, _, hm⟩, hopen⟩ := (mem_openNbrs_iff W H gs myId q p).mp hnb
      exact step_open_mem_visBound W H gs myId s hW hH m (ih q hq) hm hopen

theorem saturateFrom_nodup (W H : Nat) (gs : GameState) (myId : Option Nat) (s : Pos) :
    ∀ n : Nat, (saturateFrom W H gs myId s n).Nodup
  | 0 => List.nodup_singleton s
  | n + 1 => List.nodup_dedup _

theorem saturateFrom_subset_of_le (W H : Nat) (gs : GameState) (myId : Option Nat)
    (s : Pos) {m n : Nat} (hmn : m ≤ n) :
    ∀ p, p ∈ saturateFrom W H gs myId s m → p ∈ saturateFrom W H gs myId s n := by
  induction n with
  | zero =>
    intro p hp
    rw [Nat.le_zero.mp hmn] at hp
    exact hp
  | succ k ih =>
    rcases Nat.lt_or_ge m (k + 1) with hlt | hge
    · intro p hp
      exact saturateFrom_subset_succ W H gs myId s k p (ih (Nat.lt_succ_iff.mp hlt) p hp)
    · intro p hp
      rw [le_antisymm hmn hge] at hp
      exact hp

theorem expandOnce_congr (W H : Nat) (gs : GameState) (myId : Option Nat)
    {l1 l2 : List Pos} (h : ∀ x, x ∈ l1 ↔ x ∈ l2) :
    ∀ x, x ∈ expandOnce W H gs myId l1 ↔ x ∈ expandOnce W H gs myId l2 := by
  intro x
  rw [mem_expandOnce, mem_expandOnce]
  constructor
  · rintro (hx | ⟨q, hq, hnb⟩)
    · exact Or.inl ((h x).mp hx)
    · exact Or.inr ⟨q, (h q).mp hq, hnb⟩
  · rintro (hx | ⟨q, hq, hnb⟩)
    · exact Or.inl ((h x).mpr hx)
    · exact Or.inr ⟨q, (h q).mpr hq, hnb⟩

theorem saturateFrom_stab (W H : Nat) (gs : GameState) (myId : Option Nat) (s : Pos)
    (k : Nat) (hstab : ∀ x, x ∈ saturateFrom W H gs myId s (k + 1) ↔
      x ∈ saturateFrom W H gs myId s k) :
    ∀ j, k ≤ j → ∀ x, x ∈ saturateFrom W H gs myId s j ↔
      x ∈ saturateFrom W H gs myId s k := by
  intro j
  induction j with
  | zero =>
    intro hj x
    rw [Nat.le_zero.mp hj]
  | succ i ih =>
    intro hj x
    rcases Nat.lt_or_ge k (i + 1) with hlt | hge
    · have hik : k ≤ i := Nat.lt_succ_iff.mp hlt
      have hstep : ∀ y, y ∈ saturateFrom W H gs myId s (i + 1) ↔
          y ∈ saturateFrom W H gs myId s (k + 1) := by
        intro y
        show y ∈ expandOnce W H gs myId (saturateFrom W H gs myId s i) ↔
          y ∈ expandOnce W H gs myId (saturateFrom W H gs myId s k)
        exact expandOnce_congr W H gs myId (ih hik) y
      rw [hstep x, hstab x]
    · rw [le_antisymm hj hge]

/-- The saturation stabilises within `W*H + 5` steps: its values are
duplicate-free lists drawn from a pool of `W*H + 5` cells. -/
theorem saturateFrom_exists_stab (W H : Nat) (gs : GameState) (myId : Option Nat)
    (s : Pos) (hW : 0 < W) (hH : 0 < H) :
    ∃ k, k ≤ W * H + 5 ∧ ∀ x, x ∈ saturateFrom W H gs myId s (k + 1) ↔
      x ∈ saturateFrom W H gs myId s k := by
  by_contra hcon
  push_neg at hcon
  have hgrow : ∀ k, k ≤ W * H + 5 →
      (saturateFrom W H gs myId s k).toFinset ⊂
        (saturateFrom W H gs myId s (k + 1)).toFinset := by
    intro k hk
    have hsub : (saturateFrom W H gs myId s k).toFinset ⊆
        (saturateFrom W H gs myId s (k + 1)).toFinset := by
      intro x hx
      rw [List.mem_toFinset] at hx ⊢
      exact saturateFrom_subset_succ W H gs myId s k x hx
    rw [Finset.ssubset_iff_of_subset hsub]
    obtain ⟨x, hx⟩ := hcon k hk
    have hx1 : x ∈ saturateFrom W H gs myId s (k + 1) ∧
        x ∉ saturateFrom W H gs myId s k := by
      rcases hx with h | h
      · exact h
      · exact absurd (saturateFrom_subset_succ W H gs myId s k x h.2) h.1
    exact ⟨x, List.mem_toFinset.mpr hx1.1, fun hc => hx1.2 (List.mem_toFinset.mp hc)⟩
  have hcard : ∀ k, k ≤ W * H + 6 → k + 1 ≤ (saturateFrom W H gs myId s k).toFinset.card := by
    intro k
    induction k with
    | zero =>
      intro _
      show 1 ≤ (List.toFinset [s]).card
      simp
    | succ j ih =>
      intro hj
      have hjlt : j ≤ W * H + 5 := by omega
      have h1 := Finset.card_lt_card (hgrow j hjlt)
      have h2 := ih (by omega)
      omega
  have hbound : (saturateFrom W H gs myId s (W * H + 6)).toFinset.card ≤ W * H + 5 := by
    have hsub : (saturateFrom W H gs myId s (W * H + 6)).toFinset ⊆
        (s :: (rawNbrs W H gs.wallMode s ++ gridList W H)).toFinset := by
      intro x hx
      rw [List.mem_toFinset] at hx ⊢
      exact saturateFrom_mem_visBound W H gs myId s hW hH _ x hx
    calc (saturateFrom W H gs myId s (W * H + 6)).toFinset.card
        ≤ (s :: (rawNbrs W H gs.wallMode s ++ gridList W H)).toFinset.card :=
          Finset.card_le_card hsub
      _ ≤ (s :: (rawNbrs W H gs.wallMode s ++ gridList W H)).length :=
          List.toFinset_card_le _
      _ = W * H + 5 := visBound_length W H gs s
  have := hcard (W * H + 6) (le_refl _)
  omega

/-- The reachable-set list is exactly the cells reachable from `s`. -/
theorem mem_reachList_iff (W H : Nat) (gs : GameState) (myId : Option Nat) (s : Pos)
    (hW : 0 < W) (hH : 0 < H) (p : Pos) :
    p ∈ reachList W H gs myId s ↔ Reaches W H gs myId s p := by
  constructor
  · exact mem_saturateFrom_reaches W H gs myId s _ p
  · intro hr
    obtain ⟨n, hn⟩ := (reaches_iff_layer W H gs myId s p).mp hr
    have hsatn : p ∈ saturateFrom W H gs myId s n :=
      (mem_saturateFrom_iff W H gs myId s n p).mpr ⟨n, le_refl n, hn⟩
    obtain ⟨k, hk, hstab⟩ := saturateFrom_exists_stab W H gs myId s hW hH
    show p ∈ saturateFrom W H gs myId s (W * H + 6)
    rcases Nat.le_total n (W * H + 6) with hle | hge
    · exact saturateFrom_subset_of_le W H gs myId s hle p hsatn
    · have h1 : p ∈ saturateFrom W H gs myId s k :=
        (saturateFrom_stab W H gs myId s k hstab n (by omega) p).mp hsatn
      exact saturateFrom_subset_of_le W H gs myId s (by omega) p h1

theorem reachList_nodup (W H : Nat) (gs : GameState) (myId : Option Nat) (s : Pos) :
    (reachList W H gs myId s).Nodup :=
  saturateFrom_nodup W H gs myId s _

theorem start_mem_reachList (W H : Nat) (gs : GameState) (myId : Option Nat) (s : Pos) :
    s ∈ reachList W H gs myId s := by
  show s ∈ saturateFrom W H gs myId s (W * H + 6)
  exact saturateFrom_subset_of_le W H gs myId s (Nat.zero_le _) s
    (by simp [saturateFrom])

/-- Complete description of one expansion pass of the flood fill: the pushed
cells are fresh, open one-step neighbours, every open neighbour in the
direction list ends up visited, and stack/visited grow exactly by them. -/
theorem floodFold_spec (W H : Nat) (gs : GameState) (myId : Option Nat) (current : Pos) :
    ∀ (ms : List Dir) (st vis : List Pos),
      vis.Nodup → st.Nodup → (∀ p ∈ st, p ∈ vis) →
      ∃ new : List Pos,
        (ms.foldl (fun (acc : List Pos × List Pos) move =>
          let next := getNextCoord W H current move gs.wallMode
          if acc.2.contains next || isOccupied W H next gs myId then acc
          else (next :: acc.1, acc.2 ++ [next])) (st, vis))
          = (new.reverse ++ st, vis ++ new) ∧
        new.Nodup ∧ (∀ p ∈ new, p ∉ vis) ∧
        (∀ p ∈ new, ∃ m, m ∈ ms ∧ p = getNextCoord W H current m gs.wallMode ∧
          isOccupied W H p gs myId = false) ∧
        (∀ m ∈ ms, isOccupied W H (getNextCoord W H current m gs.wallMode) gs myId = false →
          getNextCoord W H current m gs.wallMode ∈ vis ++ new) := by
  intro ms
  induction ms with
  | nil =>
    intro st vis hvn hsn hsv
    refine ⟨[], by simp, List.nodup_nil, by simp, by simp, by simp⟩
  | cons m ms ih =>
    intro st vis hvn hsn hsv
    rw [List.foldl_cons]
    cases hcond : (vis.contains (getNextCoord W H current m gs.wallMode)
        || isOccupied W H (getNextCoord W H current m gs.wallMode) gs myId) with
    | true =>
      obtain ⟨new, heq, hnn, hfresh, hdata, hcover⟩ := ih st vis hvn hsn hsv
      refine ⟨new, ?_, hnn, hfresh, ?_, ?_⟩
      · rw [← heq]
        congr 1
        dsimp only
        rw [if_pos hcond]
      · intro p hp
        obtain ⟨m', hm', h1, h2⟩ := hdata p hp
        exact ⟨m', List.mem_cons_of_mem m hm', h1, h2⟩
      · intro m' hm' hopen
        rcases List.mem_cons.mp hm' with rfl | hm''
        · rw [Bool.or_eq_true] at hcond
          rcases hcond with hc | hc
          · exact List.mem_append.mpr (Or.inl (List.elem_iff.mp hc))
          · rw [hopen] at hc
            cases hc
        · exact hcover m' hm'' hopen
    | false =>
      obtain ⟨hnc, hnocc⟩ := Bool.or_eq_false_iff.mp hcond
      have hnotvis : getNextCoord W H current m gs.wallMode ∉ vis := by
        intro hmem
        have helem : vis.contains (getNextCoord W H current m gs.wallMode) = true :=
          List.elem_iff.mpr hmem
        rw [helem] at hnc
        simp at hnc
      have hvn' : (vis ++ [getNextCoord W H current m gs.wallMode]).Nodup := by
        simp [List.nodup_append, hvn, hnotvis]
      have hsn' : (getNextCoord W H current m gs.wallMode :: st).Nodup :=
        List.nodup_cons.mpr ⟨fun hc => hnotvis (hsv _ hc), hsn⟩
      have hsv' : ∀ p ∈ getNextCoord W H current m gs.wallMode :: st,
          p ∈ vis ++ [getNextCoord W H current m gs.wallMode] := by
        intro p hp
        rcases List.mem_cons.mp hp with rfl | hp'
        · exact List.mem_append.mpr (Or.inr (List.mem_singleton.mpr rfl))
        · exact List.mem_append.mpr (Or.inl (hsv p hp'))
      obtain ⟨new', heq, hnn, hfresh, hdata, hcover⟩ :=
        ih (getNextCoord W H current m gs.wallMode :: st)
          (vis ++ [getNextCoord W H current m gs.wallMode]) hvn' hsn' hsv'
      refine ⟨getNextCoord W H current m gs.wallMode :: new', ?_, ?_, ?_, ?_, ?_⟩
      · dsimp only
        rw [if_neg (by rw [hcond]; simp)]
        rw [heq]
        simp [List.reverse_cons, List.append_assoc]
      · exact List.nodup_cons.mpr
          ⟨fun hc => (hfresh _ hc) (List.mem_append.mpr (Or.inr (List.mem_singleton.mpr rfl))), hnn⟩
      · intro p hp
        rcases List.mem_cons.mp hp with rfl | hp'
        · exact hnotvis
        · exact fun hc => (hfresh p hp') (List.mem_append.mpr (Or.inl hc))
      · intro p hp
        rcases List.mem_cons.mp hp with rfl | hp'
        · exact ⟨m, List.mem_cons_self m ms, rfl, hnocc⟩
        · obtain ⟨m', hm', h1, h2⟩ := hdata p hp'
          exact ⟨m', List.mem_cons_of_mem m hm', h1, h2⟩
      · intro m' hm' hopen
        rcases List.mem_cons.mp hm' with rfl | hm''
        · exact List.mem_append.mpr (Or.inr (List.mem_cons_self _ _))
        · have := hcover m' hm'' hopen
          rw [List.append_assoc] at this
          simpa using this

theorem length_eq_of_nodup_mem_iff {l1 l2 : List Pos} (h1 : l1.Nodup) (h2 : l2.Nodup)
    (h : ∀ p, p ∈ l1 ↔ p ∈ l2) : l1.length = l2.length :=
  le_antisymm
    (List.Subperm.length_le (List.subperm_of_subset h1 (fun p hp => (h p).mp hp)))
    (List.Subperm.length_le (List.subperm_of_subset h2 (fun p hp => (h p).mpr hp)))

/-- Master invariant lemma for the flood-fill loop: under the loop
invariants, the result is exactly `min limit |reachable set|`. -/
theorem countAux_spec (W H : Nat) (gs : GameState) (myId : Option Nat) (s : Pos)
    (hW : 0 < W) (hH : 0 < H) (order : List Dir) (horder : ∀ d : Dir, d ∈ order)
    (limit : Nat) :
    ∀ (fuel : Nat) (stack visited popped : List Pos) (count : Nat),
      (∀ p, p ∈ visited ↔ p ∈ popped ∨ p ∈ stack) →
      visited.Nodup → popped.Nodup → stack.Nodup →
      (∀ p ∈ popped, p ∉ stack) →
      count = popped.length →
      count + 1 ≤ limit →
      s ∈ visited →
      (∀ p ∈ visited, Reaches W H gs myId s p) →
      (∀ p ∈ popped, ∀ q ∈ openNbrs W H gs myId p, q ∈ visited) →
      (∀ p ∈ visited, p ∈ s :: (rawNbrs W H gs.wallMode s ++ gridList W H)) →
      stack.length + (W * H + 5) < fuel + visited.length →
      countAccessibleAux W H gs myId limit order fuel stack visited count =
        min limit (reachList W H gs myId s).length := by
  intro fuel
  induction fuel with
  | zero =>
    intro stack visited popped count hsv hvn hpn hsn hdisj hcount hcl hs hreach hclosed
      hbound hfuel
    have hlen : visited.length ≤ W * H + 5 := by
      have h1 := List.Subperm.length_le (List.subperm_of_subset hvn hbound)
      rw [visBound_length] at h1
      exact h1
    omega
  | succ fuel ih =>
    intro stack visited popped count hsv hvn hpn hsn hdisj hcount hcl hs hreach hclosed
      hbound hfuel
    cases stack with
    | nil =>
      show count = min limit (reachList W H gs myId s).length
      have hpop_eq_vis : ∀ p : Pos, p ∈ visited ↔ p ∈ popped := by
        intro p
        rw [hsv p]
        simp
      have hreach_pop : ∀ p : Pos, Reaches W H gs myId s p → p ∈ popped := by
        intro p hr
        induction hr with
        | refl => exact (hpop_eq_vis s).mp hs
        | step h1 h2 ihh =>
          exact (hpop_eq_vis _).mp (hclosed _ ihh _ h2)
      have hmemiff : ∀ p : Pos, p ∈ popped ↔ p ∈ reachList W H gs myId s := by
        intro p
        constructor
        · intro hp
          exact (mem_reachList_iff W H gs myId s hW hH p).mpr
            (hreach p ((hpop_eq_vis p).mpr hp))
        · intro hp
          exact hreach_pop p ((mem_reachList_iff W H gs myId s hW hH p).mp hp)
      have hlen : popped.length = (reachList W H gs myId s).length :=
        length_eq_of_nodup_mem_iff hpn (reachList_nodup W H gs myId s) hmemiff
      have hNle : (reachList W H gs myId s).length ≤ limit := by omega
      rw [Nat.min_eq_right hNle]
      omega
    | cons current rest =>
      simp only [countAccessibleAux]
      by_cases hlim : limit ≤ count + 1
      · rw [if_pos hlim]
        have hcur_vis : current ∈ visited := (hsv current).mpr (Or.inr (List.mem_cons_self _ _))
        have hnodup : (current :: popped).Nodup :=
          List.nodup_cons.mpr ⟨fun hc => hdisj current hc (List.mem_cons_self _ _), hpn⟩
        have hsub : ∀ p ∈ current :: popped, p ∈ reachList W H gs myId s := by
          intro p hp
          rcases List.mem_cons.mp hp with rfl | hp'
          · exact (mem_reachList_iff W H gs myId s hW hH p).mpr (hreach p hcur_vis)
          · exact (mem_reachList_iff W H gs myId s hW hH p).mpr
              (hreach p ((hsv p).mpr (Or.inl hp')))
        have hlen : count + 1 ≤ (reachList W H gs myId s).length := by
          have h1 := List.Subperm.length_le (List.subperm_of_subset hnodup hsub)
          simp only [List.length_cons] at h1
          omega
        have hle : limit ≤ (reachList W H gs myId s).length := by omega
        rw [Nat.min_eq_left hle]
      · rw [if_neg hlim]
        have hrest_sub : ∀ p ∈ rest, p ∈ visited := by
          intro p hp
          exact (hsv p).mpr (Or.inr (List.mem_cons_of_mem _ hp))
        obtain ⟨new, heq, hnn, hfresh, hdata, hcover⟩ :=
          floodFold_spec W H gs myId current order rest visited hvn
            (List.nodup_cons.mp hsn).2 hrest_sub
        rw [heq]
        have hcur_vis : current ∈ visited := (hsv current).mpr (Or.inr (List.mem_cons_self _ _))
        apply ih (new.reverse ++ rest) (visited ++ new) (popped ++ [current]) (count + 1)
        · intro p
          simp only [List.mem_append, List.mem_reverse, List.mem_singleton]
          rw [hsv p, List.mem_cons]
          tauto
        · refine List.Nodup.append hvn hnn ?_
          intro a ha hanew
          exact hfresh a hanew ha
        · refine List.Nodup.append hpn (List.nodup_singleton current) ?_
          intro a ha hacur
          rw [List.mem_singleton] at hacur
          exact hdisj a ha (hacur ▸ List.mem_cons_self _ _)
        · refine List.Nodup.append (List.nodup_reverse.mpr hnn) (List.nodup_cons.mp hsn).2 ?_
          intro a ha harest
          rw [List.mem_reverse] at ha
          exact hfresh a ha (hrest_sub a harest)
        · intro p hp
          rw [List.mem_append, List.mem_reverse]
          rcases List.mem_append.mp hp with hp' | hp'
          · push_neg
            refine ⟨fun hc => hfresh p hc ((hsv p).mpr (Or.inl hp')), ?_⟩
            intro hc
            exact hdisj p hp' (List.mem_cons_of_mem _ hc)
          · rw [List.mem_singleton] at hp'
            subst hp'
            push_neg
            refine ⟨fun hc => hfresh p hc hcur_vis, ?_⟩
            intro hc
            exact (List.nodup_cons.mp hsn).1 hc
        · simp [hcount]
        · omega
        · exact List.mem_append.mpr (Or.inl hs)
        · intro p hp
          rcases List.mem_append.mp hp with hp' | hp'
          · exact hreach p hp'
          · obtain ⟨m, _, hpm, hopen⟩ := hdata p hp'
            exact Reaches.step (hreach current hcur_vis)
              (hpm ▸ openNbrs_of_step W H gs myId current m (every_dir_mem_moveOrder m) (hpm ▸ hopen))
        · intro p hp q hq
          rcases List.mem_append.mp hp with hp' | hp'
          · exact List.mem_append.mpr (Or.inl (hclosed p hp' q hq))
          · rw [List.mem_singleton] at hp'
            subst hp'
            obtain ⟨⟨m, hm, hqm⟩, hopen⟩ := (mem_openNbrs_iff W H gs myId p q).mp hq
            rw [hqm] at hopen ⊢
            exact hcover m (horder m) hopen
        · intro p hp
          rcases List.mem_append.mp hp with hp' | hp'
          · exact hbound p hp'
          · obtain ⟨m, _, hpm, hopen⟩ := hdata p hp'
            exact step_open_mem_visBound W H gs myId s hW hH m
              (hbound current hcur_vis) hpm hopen
        · simp only [List.length_append, List.length_reverse]
          simp only [List.length_cons] at hfuel
          omega

/-- The flood fill computes exactly `min limit |reachable set|`, for any
direction order covering all four directions. -/
theorem countTiles_eq_min (W H : Nat) (gs : GameState) (myId : Option Nat) (s : Pos)
    (hW : 0 < W) (hH : 0 < H) (order : List Dir) (horder : ∀ d : Dir, d ∈ order)
    (limit : Nat) (hlimit : 0 < limit) :
    countAccessibleTilesWith order W H s gs myId limit =
      min limit (reachList W H gs myId s).length := by
  unfold countAccessibleTilesWith
  apply countAux_spec W H gs myId s hW hH order horder limit (W * H + 9) [s] [s] [] 0
  · intro p
    simp
  · exact List.nodup_singleton s
  · exact List.nodup_nil
  · exact List.nodup_singleton s
  · simp
  · rfl
  · omega
  · simp
  · intro p hp
    rw [List.mem_singleton] at hp
    exact hp ▸ Reaches.refl
  · simp
  · intro p hp
    rw [List.mem_singleton] at hp
    exact hp ▸ List.mem_cons_self _ _
  · omega

/-- C4.  For every starting position, game state and positive limit, the
reachable-space estimator returns exactly `min limit N`, where `N` is the
true number of distinct cells reachable from the start through unblocked
cells (the start included): it never exceeds the limit, it returns the exact
count whenever that count is below the limit, and the returned value is
independent of the traversal order (any order covering the four directions
yields the same value). -/
theorem claim4_flood_fill (W H : Nat) (s : Pos) (gs : GameState) (myId : Option Nat)
    (limit : Nat) (hW : 0 < W) (hH : 0 < H) (hlimit : 0 < limit) :
    countAccessibleTiles W H s gs myId limit =
      min limit (reachList W H gs myId s).length
    ∧ (reachList W H gs myId s).Nodup
    ∧ (∀ p : Pos, p ∈ reachList W H gs myId s ↔ Reaches W H gs myId s p)
    ∧ countAccessibleTiles W H s gs myId limit ≤ limit
    ∧ ((reachList W H gs myId s).length < limit →
        countAccessibleTiles W H s gs myId limit = (reachList W H gs myId s).length)
    ∧ ∀ order : List Dir, (∀ d : Dir, d ∈ order) →
        countAccessibleTilesWith order W H s gs myId limit =
          countAccessibleTiles W H s gs myId limit := by
  have hmain := countTiles_eq_min W H gs myId s hW hH moveOrder every_dir_mem_moveOrder
    limit hlimit
  refine ⟨hmain, reachList_nodup W H gs myId s,
    fun p => mem_reachList_iff W H gs myId s hW hH p, ?_, ?_, ?_⟩
  · rw [show countAccessibleTiles W H s gs myId limit =
      countAccessibleTilesWith moveOrder W H s gs myId limit from rfl, hmain]
    exact Nat.min_le_left _ _
  · intro hlt
    rw [show countAccessibleTiles W H s gs myId limit =
      countAccessibleTilesWith moveOrder W H s gs myId limit from rfl, hmain]
    exact Nat.min_eq_right (le_of_lt hlt)
  · intro order horder
    rw [show countAccessibleTiles W H s gs myId limit =
      countAccessibleTilesWith moveOrder W H s gs myId limit from rfl, hmain]
    exact countTiles_eq_min W H gs myId s hW hH order horder limit hlimit

/-- Witness for C4 at a concrete state (the spec scenario, from the cell above
the head, limit 5: the open area is larger than the limit, so 5 is returned). -/
theorem claim4_flood_fill_witness :
    countAccessibleTiles 10 10 ⟨5, 4⟩ ⟨true, [⟨1, true, true, [⟨5, 5⟩], .up, .up⟩], [⟨5, 0⟩]⟩
        (some 1) 5 =
      min 5 (reachList 10 10 ⟨true, [⟨1, true, true, [⟨5, 5⟩], .up, .up⟩], [⟨5, 0⟩]⟩
        (some 1) ⟨5, 4⟩).length
    ∧ (reachList 10 10 ⟨true, [⟨1, true, true, [⟨5, 5⟩], .up, .up⟩], [⟨5, 0⟩]⟩
        (some 1) ⟨5, 4⟩).Nodup
    ∧ (∀ p : Pos, p ∈ reachList 10 10 ⟨true, [⟨1, true, true, [⟨5, 5⟩], .up, .up⟩], [⟨5, 0⟩]⟩
        (some 1) ⟨5, 4⟩ ↔
        Reaches 10 10 ⟨true, [⟨1, true, true, [⟨5, 5⟩], .up, .up⟩], [⟨5, 0⟩]⟩
          (some 1) ⟨5, 4⟩ p)
    ∧ countAccessibleTiles 10 10 ⟨5, 4⟩
        ⟨true, [⟨1, true, true, [⟨5, 5⟩], .up, .up⟩], [⟨5, 0⟩]⟩ (some 1) 5 ≤ 5
    ∧ ((reachList 10 10 ⟨true, [⟨1, true, true, [⟨5, 5⟩], .up, .up⟩], [⟨5, 0⟩]⟩
        (some 1) ⟨5, 4⟩).length < 5 →
        countAccessibleTiles 10 10 ⟨5, 4⟩
          ⟨true, [⟨1, true, true, [⟨5, 5⟩], .up, .up⟩], [⟨5, 0⟩]⟩ (some 1) 5 =
        (reachList 10 10 ⟨true, [⟨1, true, true, [⟨5, 5⟩], .up, .up⟩], [⟨5, 0⟩]⟩
          (some 1) ⟨5, 4⟩).length)
    ∧ ∀ order : List Dir, (∀ d : Dir, d ∈ order) →
        countAccessibleTilesWith order 10 10 ⟨5, 4⟩
          ⟨true, [⟨1, true, true, [⟨5, 5⟩], .up, .up⟩], [⟨5, 0⟩]⟩ (some 1) 5 =
        countAccessibleTiles 10 10 ⟨5, 4⟩
          ⟨true, [⟨1, true, true, [⟨5, 5⟩], .up, .up⟩], [⟨5, 0⟩]⟩ (some 1) 5 :=
  claim4_flood_fill 10 10 ⟨5, 4⟩ ⟨true, [⟨1, true, true, [⟨5, 5⟩], .up, .up⟩], [⟨5, 0⟩]⟩
    (some 1) 5 (by decide) (by decide) (by decide)

/-! ## C1: the hard tier and certified dead ends -/

theorem draw_nonneg {rng : List ℚ} (hrng : ∀ r ∈ rng, 0 ≤ r) : 0 ≤ (draw rng).1 := by
  cases rng with
  | nil => exact le_refl 0
  | cons r rest => exact hrng r (List.mem_cons_self r rest)

/-- Once the space-maximising fold holds a real candidate, it returns a
maximising move of the candidate-or-list pool. -/
theorem foldl_max_spec (f : Dir → Int) :
    ∀ (l : List Dir) (b0 : Dir),
      ∃ b : Dir, (l.foldl (fun acc mv =>
          if acc.2 < f mv then (some mv, f mv) else acc) (some b0, f b0)) = (some b, f b)
        ∧ (b = b0 ∨ b ∈ l) ∧ f b0 ≤ f b ∧ ∀ m ∈ l, f m ≤ f b := by
  intro l
  induction l with
  | nil =>
    intro b0
    exact ⟨b0, rfl, Or.inl rfl, le_refl _, by simp⟩
  | cons x xs ih =>
    intro b0
    rw [List.foldl_cons]
    by_cases hc : f b0 < f x
    · rw [if_pos hc]
      obtain ⟨b, heq, hmem, hle, hmax⟩ := ih x
      refine ⟨b, heq, ?_, le_trans (le_of_lt hc) hle, ?_⟩
      · rcases hmem with rfl | hm
        · exact Or.inr (List.mem_cons_self _ _)
        · exact Or.inr (List.mem_cons_of_mem _ hm)
      · intro m hm
        rcases List.mem_cons.mp hm with rfl | hm'
        · exact hle
        · exact hmax m hm'
    · rw [if_neg hc]
      obtain ⟨b, heq, hmem, hle, hmax⟩ := ih b0
      refine ⟨b, heq, ?_, hle, ?_⟩
      · rcases hmem with rfl | hm
        · exact Or.inl rfl
        · exact Or.inr (List.mem_cons_of_mem _ hm)
      · intro m hm
        rcases List.mem_cons.mp hm with rfl | hm'
        · exact le_trans (not_lt.mp hc) hle
        · exact hmax m hm'

/-- The space-maximising pass over a nonempty safe-move list returns an
argmax from the list. -/
theorem foldl_max_init (f : Dir → Int) (hf : ∀ m : Dir, -1 < f m) :
    ∀ (l : List Dir), l ≠ [] →
      ∃ b ∈ l, (l.foldl (fun acc mv =>
          if acc.2 < f mv then (some mv, f mv) else acc)
          ((none : Option Dir), (-1 : Int))) = (some b, f b) ∧ ∀ m ∈ l, f m ≤ f b := by
  intro l hl
  cases l with
  | nil => exact absurd rfl hl
  | cons x xs =>
    rw [List.foldl_cons, if_pos (hf x)]
    obtain ⟨b, heq, hmem, hle, hmax⟩ := foldl_max_spec f xs x
    refine ⟨b, ?_, heq, ?_⟩
    · rcases hmem with rfl | hm
      · exact List.mem_cons_self _ _
      · exact List.mem_cons_of_mem _ hm
    · intro m hm
      rcases List.mem_cons.mp hm with rfl | hm'
      · exact hle
      · exact hmax m hm'

/-- C1 (amended: snake length at most 100, the survival-mode exploration
cap).  At effective tier hard with a zero error chance, outside the delay
gate, whenever some safe move's estimator value (limit = snake length) is at
least the snake length, every move the policy returns has estimator value at
least the snake length — it never returns a move certified as a dead end.
The length bound is forced by the source: survival mode caps its flood fill
at 100, so for longer snakes the tail-chase can pick a certified dead end
(see the counterexample). -/
theorem claim1_no_certified_dead_end (W H : Nat) (npc : NPC) (gs : GameState)
    (player : Player) (rng : List ℚ) (head : Pos) (tl : List Pos)
    (hW : 0 < W) (hH : 0 < H)
    (hsnake : player.snake = head :: tl)
    (halive : player.isAlive = true)
    (heff : effDifficulty npc player = .hard)
    (hdelay : npc.decisionDelay = 0)
    (hrng : ∀ r ∈ rng, 0 ≤ r)
    (hL : player.snake.length ≤ 100)
    (hsafe : ∃ m ∈ safeMovesOf W H gs player,
      player.snake.length ≤ countAccessibleTiles W H
        (getNextCoord W H head m gs.wallMode) gs (some player.id) player.snake.length) :
    ∀ d : Dir, (decideNPCMove W H npc gs player rng).1 = some d →
      player.snake.length ≤ countAccessibleTiles W H
        (getNextCoord W H head d gs.wallMode) gs (some player.id) player.snake.length := by
  intro d h
  have hL1 : 1 ≤ player.snake.length := by
    rw [hsnake]
    simp
  have hcnt : ∀ (p : Pos) (t : Nat), 0 < t →
      countAccessibleTiles W H p gs (some player.id) t =
        min t (reachList W H gs (some player.id) p).length :=
    fun p t ht => countTiles_eq_min W H gs (some player.id) p hW hH moveOrder
      every_dir_mem_moveOrder t ht
  obtain ⟨m0, hm0, hm0c⟩ := hsafe
  rw [hcnt _ _ (by omega)] at hm0c
  have hm0N : player.snake.length ≤
      (reachList W H gs (some player.id) (getNextCoord W H head m0 gs.wallMode)).length := by
    omega
  have hm0' : m0 ∈ safeMovesFrom W H gs head (some player.id) := by
    unfold safeMovesOf at hm0
    rw [hsnake] at hm0
    exact hm0
  have hne : safeMovesFrom W H gs head (some player.id) ≠ [] :=
    fun hc => by rw [hc] at hm0'; cases hm0'
  -- unfold the decision down to chooseMove
  unfold decideNPCMove at h
  rw [halive, hsnake] at h
  dsimp only at h
  rw [heff] at h
  simp only [getDifficultySettings] at h
  rw [hdelay, if_neg (by omega)] at h
  rw [if_neg (by simp [List.isEmpty_iff, hne])] at h
  -- h : (chooseMove ...).1 = some d
  unfold chooseMove at h
  dsimp only at h
  rw [if_neg (not_lt.mpr (draw_nonneg hrng))] at h
  rw [if_pos rfl] at h
  cases hpc : pathCommit W H gs player ⟨0, 0, true, true⟩ head
      (safeMovesFrom W H gs head (some player.id)) with
  | some move =>
    rw [hpc] at h
    dsimp only at h
    have hmd : move = d := Option.some.inj h
    subst hmd
    -- extract the safety check from the successful commit
    unfold pathCommit at hpc
    cases hfp : findPathToClosestFood W H head gs (some player.id) with
    | none =>
      rw [hfp] at hpc
      cases hpc
    | some pr =>
      rw [hfp] at hpc
      dsimp only at hpc
      split at hpc
      · split at hpc
        · split at hpc
          · rename_i hcond
            have hmv : pr.1 = move := Option.some.inj hpc
            rw [hmv] at hcond
            exact hcond
          · cases hpc
        · rename_i hsc
          exact absurd rfl hsc
      · cases hpc
  | none =>
    rw [hpc] at h
    dsimp only at h
    rw [if_pos rfl] at h
    -- h : survivalMove ... = some d
    unfold survivalMove at h
    dsimp only at h
    obtain ⟨b, hb, heqfold, hmax⟩ := foldl_max_init
      (fun mv => (survivalSpace W H gs player head mv : Int))
      (fun mv => lt_of_lt_of_le (by norm_num) (Int.natCast_nonneg _))
      (safeMovesFrom W H gs head (some player.id)) hne
    rw [heqfold] at h
    dsimp only at h
    have hm0space : (player.snake.length : Int) ≤ survivalSpace W H gs player head m0 := by
      unfold survivalSpace
      rw [hcnt _ _ (by omega)]
      have : player.snake.length ≤
          min 100 (reachList W H gs (some player.id)
            (getNextCoord W H head m0 gs.wallMode)).length := by
        omega
      exact_mod_cast this
    have hbge : (player.snake.length : Int) ≤ survivalSpace W H gs player head b :=
      le_trans hm0space (hmax m0 hm0')
    rw [if_pos hbge] at h
    have hbd : b = d := Option.some.inj h
    subst hbd
    have hbspace : player.snake.length ≤
        min 100 (reachList W H gs (some player.id)
          (getNextCoord W H head b gs.wallMode)).length := by
      have := hbge
      unfold survivalSpace at this
      rw [hcnt _ _ (by omega)] at this
      exact_mod_cast this
    rw [hcnt _ _ (by omega)]
    omega

set_option maxRecDepth 1000000 in
set_option maxHeartbeats 4000000 in
/-- C1 counterexample to the unamended claim: at effective tier hard with
decision delay 0 and a nonnegative random stream, the snake of length 101
has the safe move `down` whose reachable space is at least its length, yet
the policy returns `up`, whose reachable space (35) the estimator certifies
as a dead end.  The claim as stated fails for snakes longer than the
survival flood-fill cap of 100. -/
theorem claim1_counterexample :
    effDifficulty c1NPC c1Player = .hard ∧
    c1NPC.decisionDelay = 0 ∧
    c1Player.snake.length = 101 ∧
    Dir.down ∈ safeMovesOf 7 21 c1GS c1Player ∧
    c1Player.snake.length ≤ countAccessibleTiles 7 21
      (getNextCoord 7 21 ⟨3, 5⟩ .down c1GS.wallMode) c1GS (some c1Player.id)
      c1Player.snake.length ∧
    (decideNPCMove 7 21 c1NPC c1GS c1Player [1]).1 = some .up ∧
    countAccessibleTiles 7 21 (getNextCoord 7 21 ⟨3, 5⟩ .up c1GS.wallMode) c1GS
      (some c1Player.id) c1Player.snake.length < c1Player.snake.length := by
  decide

set_option maxRecDepth 1000000 in
set_option maxHeartbeats 4000000 in
/-- Witness for the amended C1 at the 10 by 10 survival scenario. -/
theorem claim1_no_certified_dead_end_witness :
    c1wPlayer.snake.length ≤ countAccessibleTiles 10 10
      (getNextCoord 10 10 ⟨5, 5⟩ .up c1wGS.wallMode) c1wGS (some c1wPlayer.id)
      c1wPlayer.snake.length :=
  claim1_no_certified_dead_end 10 10 c1wNPC c1wGS c1wPlayer [1] ⟨5, 5⟩ [⟨5, 6⟩]
    (by decide) (by decide) rfl rfl rfl rfl
    (by intro r hr; rw [List.mem_singleton] at hr; rw [hr]; norm_num)
    (by decide) ⟨.up, by decide, by decide⟩ .up (by decide)

/-- Every queue entry produced by the BFS expansion fold is either carried
over from the accumulator or is a fresh unoccupied one-step neighbour of the
dequeued entry at distance one more. -/
theorem bfsExpand_mem (W H : Nat) (gs : GameState) (myId : Option Nat) (e : QEntry) :
    ∀ (ms : List Dir) (acc : List QEntry × List Pos) (e' : QEntry),
      e' ∈ (ms.foldl (fun (acc : List QEntry × List Pos) move =>
        let next := getNextCoord W H e.pos move gs.wallMode
        if acc.2.contains next || isOccupied W H next gs myId then acc
        else (acc.1 ++ [⟨next, e.firstMove, e.dist + 1⟩], acc.2 ++ [next])) acc).1 →
      e' ∈ acc.1 ∨ ∃ m : Dir, e'.pos = getNextCoord W H e.pos m gs.wallMode ∧
        isOccupied W H e'.pos gs myId = false ∧ e'.dist = e.dist + 1 := by
  intro ms
  induction ms with
  | nil => intro acc e' h; exact Or.inl h
  | cons m ms ih =>
    intro acc e' h
    rw [List.foldl_cons] at h
    dsimp only at h
    by_cases hc : (acc.2.contains (getNextCoord W H e.pos m gs.wallMode)
        || isOccupied W H (getNextCoord W H e.pos m gs.wallMode) gs myId) = true
    · rw [if_pos hc] at h
      exact ih acc e' h
    · rw [if_neg hc] at h
      rcases ih _ e' h with hmem | hnew
      · rw [List.mem_append] at hmem
        rcases hmem with hmem | hmem
        · exact Or.inl hmem
        · rw [List.mem_singleton] at hmem
          subst hmem
          rw [Bool.or_eq_true, not_or] at hc
          exact Or.inr ⟨m, rfl, Bool.not_eq_true _ ▸ hc.2, rfl⟩
      · exact Or.inr hnew

/-- Every seed entry is an unoccupied one-step neighbour of the start at
distance 1. -/
theorem bfsSeeds_mem_aux (W H : Nat) (gs : GameState) (myId : Option Nat) (s : Pos) :
    ∀ (ms : List Dir) (acc : List QEntry × List Pos) (e : QEntry),
      e ∈ (ms.foldl (fun (acc : List QEntry × List Pos) move =>
        let next := getNextCoord W H s move gs.wallMode
        if isOccupied W H next gs myId then acc
        else (acc.1 ++ [⟨next, move, 1⟩],
              if acc.2.contains next then acc.2 else acc.2 ++ [next])) acc).1 →
      e ∈ acc.1 ∨ ∃ m : Dir, m ∈ ms ∧ e.pos = getNextCoord W H s m gs.wallMode ∧
        isOccupied W H e.pos gs myId = false ∧ e.dist = 1 ∧ e.firstMove = m := by
  intro ms
  induction ms with
  | nil => intro acc e h; exact Or.inl h
  | cons m ms ih =>
    intro acc e h
    rw [List.foldl_cons] at h
    dsimp only at h
    by_cases hc : isOccupied W H (getNextCoord W H s m gs.wallMode) gs myId = true
    · rw [if_pos hc] at h
      rcases ih acc e h with hmem | ⟨m', hm', hrest⟩
      · exact Or.inl hmem
      · exact Or.inr ⟨m', List.mem_cons_of_mem m hm', hrest⟩
    · rw [if_neg hc] at h
      rcases ih _ e h with hmem | ⟨m', hm', hrest⟩
      · rw [List.mem_append] at hmem
        rcases hmem with hmem | hmem
        · exact Or.inl hmem
        · rw [List.mem_singleton] at hmem
          subst hmem
          exact Or.inr ⟨m, List.mem_cons_self m ms, rfl, Bool.not_eq_true _ ▸ hc, rfl, rfl⟩
      · exact Or.inr ⟨m', List.mem_cons_of_mem m hm', hrest⟩

theorem bfsSeeds_mem (W H : Nat) (gs : GameState) (myId : Option Nat) (s : Pos)
    (e : QEntry) (h : e ∈ (bfsSeeds W H gs myId s).1) :
    ∃ m : Dir, e.pos = getNextCoord W H s m gs.wallMode ∧
      isOccupied W H e.pos gs myId = false ∧ e.dist = 1 ∧ e.firstMove = m := by
  rcases bfsSeeds_mem_aux W H gs myId s moveOrder ([], []) e h with hmem | ⟨m, _, hrest⟩
  · cases hmem
  · exact ⟨m, hrest⟩

/-- BFS soundness at the depth cap: if no cell within 51 steps of the head
carries food, the search returns nothing, for any queue whose entries all lie
on their recorded layer within the cap. -/
theorem findPathAux_none (W H : Nat) (gs : GameState) (myId : Option Nat) (head : Pos)
    (hnofood : ∀ n : Nat, n ≤ 51 → ∀ p ∈ layersFrom W H gs myId head n,
      gs.food.any (fun f => f.x == p.x && f.y == p.y) = false) :
    ∀ (fuel : Nat) (q : List QEntry) (visited : List Pos),
      (∀ e ∈ q, e.dist ≤ 51 ∧ e.pos ∈ layersFrom W H gs myId head e.dist) →
      findPathAux W H gs myId fuel q visited = none := by
  intro fuel
  induction fuel with
  | zero => intro q visited _; rfl
  | succ fuel ih =>
    intro q visited hq
    cases q with
    | nil => rfl
    | cons e rest =>
      obtain ⟨hd51, hlayer⟩ := hq e (List.mem_cons_self e rest)
      unfold findPathAux
      rw [hnofood e.dist hd51 e.pos hlayer, if_neg (Bool.false_ne_true)]
      by_cases hdc : 50 < e.dist
      · rw [if_pos hdc]
        exact ih rest visited (fun e' he' => hq e' (List.mem_cons_of_mem e he'))
      · rw [if_neg hdc]
        dsimp only
        apply ih
        intro e' he'
        rcases bfsExpand_mem W H gs myId e moveOrder (rest, visited) e' he' with
          hmem | ⟨m, hpos, hocc, hdist⟩
        · exact hq e' (List.mem_cons_of_mem e hmem)
        · refine ⟨by omega, ?_⟩
          rw [hdist, mem_layersFrom_succ]
          exact ⟨e.pos, hlayer,
            hpos ▸ openNbrs_of_step W H gs myId e.pos m (every_dir_mem_moveOrder m) (hpos ▸ hocc)⟩

/-- C5 (amended: the effective depth cap is 51, not 50).  If no cell
reachable from the head within 51 steps through unblocked cells carries
food (the head cell itself included, which the search never tests), the
Pathfinder returns no path.  The source tests the dequeued cell for food
BEFORE comparing its distance against the cap of 50, so entries at distance
51 — enqueued by their distance-50 parents — are still tested, and food at
exact distance 51 is found (see the counterexample); only beyond 51 does the
bot behave as if food were unreachable. -/
theorem claim5_depth_cap (W H : Nat) (gs : GameState) (myId : Option Nat) (head : Pos)
    (hnofood : ∀ n : Nat, n ≤ 51 → ∀ p ∈ layersFrom W H gs myId head n,
      gs.food.any (fun f => f.x == p.x && f.y == p.y) = false) :
    findPathToClosestFood W H head gs myId = none := by
  unfold findPathToClosestFood
  dsimp only
  apply findPathAux_none W H gs myId head hnofood
  intro e he
  obtain ⟨m, hpos, hocc, hdist, _⟩ := bfsSeeds_mem W H gs myId head e he
  refine ⟨by omega, ?_⟩
  rw [hdist, mem_layersFrom_succ]
  exact ⟨head, (mem_layersFrom_zero W H gs myId head head).mpr rfl,
    hpos ▸ openNbrs_of_step W H gs myId head m (every_dir_mem_moveOrder m) (hpos ▸ hocc)⟩

set_option maxRecDepth 1000000 in
set_option maxHeartbeats 2000000 in
/-- C5 counterexample to the unamended claim: a 52 by 1 walled corridor with
the head at one end and the only food at the other, at shortest-path
distance 51 — strictly beyond the claimed cap of 50 (no cell within 50
steps carries food) — yet the Pathfinder finds it and returns the path of
length 51. -/
theorem claim5_counterexample :
    findPathToClosestFood 52 1 ⟨0, 0⟩ ⟨true, [], [⟨51, 0⟩]⟩ none =
      some (.right, 51) ∧
    ∀ n : Nat, n ≤ 50 → ∀ p ∈ layersFrom 52 1 ⟨true, [], [⟨51, 0⟩]⟩ none ⟨0, 0⟩ n,
      (⟨true, [], [⟨51, 0⟩]⟩ : GameState).food.any
        (fun f => f.x == p.x && f.y == p.y) = false := by
  constructor
  · decide
  · decide

set_option maxRecDepth 1000000 in
set_option maxHeartbeats 2000000 in
/-- Witness for the amended C5: a 54 by 1 walled corridor with the food at
distance 53 > 51; the Pathfinder returns no path. -/
theorem claim5_depth_cap_witness :
    findPathToClosestFood 54 1 ⟨0, 0⟩ ⟨true, [], [⟨53, 0⟩]⟩ none = none :=
  claim5_depth_cap 54 1 ⟨true, [], [⟨53, 0⟩]⟩ none ⟨0, 0⟩ (by decide)

/-- A walk of length `n + 1` from `s` decomposes at its FIRST step: it is an
open neighbour `q` of `s` followed by a walk of length `n` from `q`. -/
theorem mem_layersFrom_shift (W H : Nat) (gs : GameState) (myId : Option Nat)
    (s : Pos) (n : Nat) :
    ∀ p : Pos, p ∈ layersFrom W H gs myId s (n + 1) ↔
      ∃ q ∈ openNbrs W H gs myId s, p ∈ layersFrom W H gs myId q n := by
  induction n with
  | zero =>
    intro p
    rw [mem_layersFrom_succ]
    constructor
    · rintro ⟨q, hq, hpq⟩
      rw [mem_layersFrom_zero] at hq
      subst hq
      exact ⟨p, hpq, (mem_layersFrom_zero W H gs myId p p).mpr rfl⟩
    · rintro ⟨q, hq, hpq⟩
      rw [mem_layersFrom_zero] at hpq
      subst hpq
      exact ⟨s, (mem_layersFrom_zero W H gs myId s s).mpr rfl, hq⟩
  | succ n ih =>
    intro p
    rw [mem_layersFrom_succ]
    constructor
    · rintro ⟨r, hr, hpr⟩
      obtain ⟨q, hq, hrq⟩ := (ih r).mp hr
      exact ⟨q, hq, (mem_layersFrom_succ W H gs myId q p n).mpr ⟨r, hrq, hpr⟩⟩
    · rintro ⟨q, hq, hpq⟩
      obtain ⟨r, hrq, hpr⟩ := (mem_layersFrom_succ W H gs myId q p n).mp hpq
      exact ⟨r, (ih r).mpr ⟨q, hq, hrq⟩, hpr⟩

/-- A cell at exact walk distance `n + 1` has a predecessor at exact walk
distance `n`. -/
theorem layer_parent_exact (W H : Nat) (gs : GameState) (myId : Option Nat)
    (head : Pos) (p : Pos) (n : Nat)
    (hp : p ∈ layersFrom W H gs myId head (n + 1))
    (hex : ∀ k : Nat, 1 ≤ k → k ≤ n → p ∉ layersFrom W H gs myId head k) :
    ∃ r : Pos, r ∈ layersFrom W H gs myId head n ∧
      (∀ k : Nat, 1 ≤ k → k < n → r ∉ layersFrom W H gs myId head k) ∧
      p ∈ openNbrs W H gs myId r := by
  obtain ⟨r, hr, hpr⟩ := (mem_layersFrom_succ W H gs myId head p n).mp hp
  refine ⟨r, hr, ?_, hpr⟩
  intro k hk1 hkn hrL
  exact hex (k + 1) (by omega) (by omega)
    ((mem_layersFrom_succ W H gs myId head p k).mpr ⟨r, hrL, hpr⟩)

/-- Below a cell at exact walk distance `dstar`, every level `1 ≤ j ≤ dstar`
holds a cell at exact walk distance `j`. -/
theorem exists_exact_layer (W H : Nat) (gs : GameState) (myId : Option Nat)
    (head : Pos) (dstar : Nat) (pstar : Pos)
    (hps : pstar ∈ layersFrom W H gs myId head dstar)
    (hpsex : ∀ n : Nat, 1 ≤ n → n < dstar → pstar ∉ layersFrom W H gs myId head n) :
    ∀ (i j : Nat), j + i = dstar → 1 ≤ j →
      ∃ r : Pos, r ∈ layersFrom W H gs myId head j ∧
        ∀ n : Nat, 1 ≤ n → n < j → r ∉ layersFrom W H gs myId head n := by
  intro i
  induction i with
  | zero =>
    intro j hji _
    have hj : j = dstar := by omega
    subst hj
    exact ⟨pstar, hps, hpsex⟩
  | succ i ih =>
    intro j hji hj1
    obtain ⟨r, hr, hrex⟩ := ih (j + 1) (by omega) (by omega)
    obtain ⟨r', hr', hr'ex, _⟩ := layer_parent_exact W H gs myId head r j hr
      (fun k hk1 hkj => hrex k hk1 (by omega))
    exact ⟨r', hr', hr'ex⟩

/-- The seed fold only extends its queue and visited accumulators. -/
theorem seedsFold_mono (W H : Nat) (gs : GameState) (myId : Option Nat) (s : Pos) :
    ∀ (ms : List Dir) (acc : List QEntry × List Pos),
      (∀ e ∈ acc.1, e ∈ (ms.foldl (fun (acc : List QEntry × List Pos) move =>
        let next := getNextCoord W H s move gs.wallMode
        if isOccupied W H next gs myId then acc
        else (acc.1 ++ [⟨next, move, 1⟩],
              if acc.2.contains next then acc.2 else acc.2 ++ [next])) acc).1) ∧
      (∀ p ∈ acc.2, p ∈ (ms.foldl (fun (acc : List QEntry × List Pos) move =>
        let next := getNextCoord W H s move gs.wallMode
        if isOccupied W H next gs myId then acc
        else (acc.1 ++ [⟨next, move, 1⟩],
              if acc.2.contains next then acc.2 else acc.2 ++ [next])) acc).2) := by
  intro ms
  induction ms with
  | nil => exact fun acc => ⟨fun e he => he, fun p hp => hp⟩
  | cons m ms ih =>
    intro acc
    simp only [List.foldl_cons]
    by_cases hc : isOccupied W H (getNextCoord W H s m gs.wallMode) gs myId = true
    · rw [if_pos hc]
      exact ih acc
    · rw [if_neg hc]
      refine ⟨fun e he => (ih _).1 e (List.mem_append_left _ he), fun p hp => (ih _).2 p ?_⟩
      by_cases hct : acc.2.contains (getNextCoord W H s m gs.wallMode) = true
      · rw [if_pos hct]; exact hp
      · rw [if_neg hct]; exact List.mem_append_left _ hp

/-- Every open one-step neighbour of the start enters both the seed queue
(with its move and distance 1) and the seed visited set. -/
theorem seedsFold_cover (W H : Nat) (gs : GameState) (myId : Option Nat) (s : Pos) :
    ∀ (ms : List Dir) (acc : List QEntry × List Pos), ∀ m ∈ ms,
      isOccupied W H (getNextCoord W H s m gs.wallMode) gs myId = false →
      (∃ e ∈ (ms.foldl (fun (acc : List QEntry × List Pos) move =>
        let next := getNextCoord W H s move gs.wallMode
        if isOccupied W H next gs myId then acc
        else (acc.1 ++ [⟨next, move, 1⟩],
              if acc.2.contains next then acc.2 else acc.2 ++ [next])) acc).1,
        e.pos = getNextCoord W H s m gs.wallMode ∧ e.dist = 1 ∧ e.firstMove = m) ∧
      getNextCoord W H s m gs.wallMode ∈ (ms.foldl (fun (acc : List QEntry × List Pos) move =>
        let next := getNextCoord W H s move gs.wallMode
        if isOccupied W H next gs myId then acc
        else (acc.1 ++ [⟨next, move, 1⟩],
              if acc.2.contains next then acc.2 else acc.2 ++ [next])) acc).2 := by
  intro ms
  induction ms with
  | nil => intro acc m hm; cases hm
  | cons m' ms ih =>
    intro acc m hm hopen
    simp only [List.foldl_cons]
    rcases List.mem_cons.mp hm with rfl | hm'
    · rw [if_neg (by rw [hopen]; exact Bool.false_ne_true)]
      constructor
      · refine ⟨⟨getNextCoord W H s m gs.wallMode, m, 1⟩,
          (seedsFold_mono W H gs myId s ms _).1 _
            (List.mem_append_right _ (List.mem_singleton_self _)), rfl, rfl, rfl⟩
      · apply (seedsFold_mono W H gs myId s ms _).2
        by_cases hct : acc.2.contains (getNextCoord W H s m gs.wallMode) = true
        · rw [if_pos hct]
          exact (List.elem_iff).mp hct
        · rw [if_neg hct]
          exact List.mem_append_right _ (List.mem_singleton_self _)
    · by_cases hc : isOccupied W H (getNextCoord W H s m' gs.wallMode) gs myId = true
      · rw [if_pos hc]
        exact ih acc m hm' hopen
      · rw [if_neg hc]
        exact ih _ m hm' hopen

/-- Every cell of the seed visited set is an open one-step neighbour of the
start (or was there before the fold ran). -/
theorem seedsFold_vis_char (W H : Nat) (gs : GameState) (myId : Option Nat) (s : Pos) :
    ∀ (ms : List Dir) (acc : List QEntry × List Pos),
      ∀ p ∈ (ms.foldl (fun (acc : List QEntry × List Pos) move =>
        let next := getNextCoord W H s move gs.wallMode
        if isOccupied W H next gs myId then acc
        else (acc.1 ++ [⟨next, move, 1⟩],
              if acc.2.contains next then acc.2 else acc.2 ++ [next])) acc).2,
      p ∈ acc.2 ∨ ∃ m : Dir, p = getNextCoord W H s m gs.wallMode ∧
        isOccupied W H p gs myId = false := by
  intro ms
  induction ms with
  | nil => exact fun acc p hp => Or.inl hp
  | cons m ms ih =>
    intro acc p hp
    rw [List.foldl_cons] at hp
    dsimp only at hp
    by_cases hc : isOccupied W H (getNextCoord W H s m gs.wallMode) gs myId = true
    · rw [if_pos hc] at hp
      exact ih acc p hp
    · rw [if_neg hc] at hp
      rcases ih _ p hp with hmem | hnew
      · by_cases hct : acc.2.contains (getNextCoord W H s m gs.wallMode) = true
        · rw [if_pos hct] at hmem
          exact Or.inl hmem
        · rw [if_neg hct] at hmem
          rcases List.mem_append.mp hmem with hmem | hmem
          · exact Or.inl hmem
          · rw [List.mem_singleton] at hmem
            subst hmem
            exact Or.inr ⟨m, rfl, Bool.not_eq_true _ ▸ hc⟩
      · exact Or.inr hnew

/-- The seed visited set stays duplicate-free (the fold checks membership
before adding). -/
theorem seedsFold_vis_nodup (W H : Nat) (gs : GameState) (myId : Option Nat) (s : Pos) :
    ∀ (ms : List Dir) (acc : List QEntry × List Pos), acc.2.Nodup →
      (ms.foldl (fun (acc : List QEntry × List Pos) move =>
        let next := getNextCoord W H s move gs.wallMode
        if isOccupied W H next gs myId then acc
        else (acc.1 ++ [⟨next, move, 1⟩],
              if acc.2.contains next then acc.2 else acc.2 ++ [next])) acc).2.Nodup := by
  intro ms
  induction ms with
  | nil => exact fun acc h => h
  | cons m ms ih =>
    intro acc hacc
    simp only [List.foldl_cons]
    by_cases hc : isOccupied W H (getNextCoord W H s m gs.wallMode) gs myId = true
    · rw [if_pos hc]
      exact ih acc hacc
    · rw [if_neg hc]
      apply ih
      by_cases hct : acc.2.contains (getNextCoord W H s m gs.wallMode) = true
      · rw [if_pos hct]
        exact hacc
      · rw [if_neg hct]
        dsimp only
        rw [List.nodup_append]
        refine ⟨hacc, List.nodup_singleton _, fun p hp hp1 => ?_⟩
        rw [List.mem_singleton] at hp1
        subst hp1
        exact hct ((List.elem_iff).mpr hp)

/-- The seed queue holds at most one entry per direction tried. -/
theorem seedsFold_len (W H : Nat) (gs : GameState) (myId : Option Nat) (s : Pos) :
    ∀ (ms : List Dir) (acc : List QEntry × List Pos),
      (ms.foldl (fun (acc : List QEntry × List Pos) move =>
        let next := getNextCoord W H s move gs.wallMode
        if isOccupied W H next gs myId then acc
        else (acc.1 ++ [⟨next, move, 1⟩],
              if acc.2.contains next then acc.2 else acc.2 ++ [next])) acc).1.length ≤
        acc.1.length + ms.length := by
  intro ms
  induction ms with
  | nil => exact fun acc => Nat.le_of_eq rfl
  | cons m ms ih =>
    intro acc
    simp only [List.foldl_cons, List.length_cons]
    by_cases hc : isOccupied W H (getNextCoord W H s m gs.wallMode) gs myId = true
    · rw [if_pos hc]
      exact le_trans (ih acc) (by omega)
    · rw [if_neg hc]
      refine le_trans (ih _) ?_
      dsimp only
      rw [List.length_append]
      simp only [List.length_singleton]
      omega

/-- Every seed queue entry's position is in the seed visited set. -/
theorem seedsFold_qv (W H : Nat) (gs : GameState) (myId : Option Nat) (s : Pos) :
    ∀ (ms : List Dir) (acc : List QEntry × List Pos),
      (∀ e ∈ acc.1, e.pos ∈ acc.2) →
      ∀ e ∈ (ms.foldl (fun (acc : List QEntry × List Pos) move =>
        let next := getNextCoord W H s move gs.wallMode
        if isOccupied W H next gs myId then acc
        else (acc.1 ++ [⟨next, move, 1⟩],
              if acc.2.contains next then acc.2 else acc.2 ++ [next])) acc).1,
        e.pos ∈ (ms.foldl (fun (acc : List QEntry × List Pos) move =>
        let next := getNextCoord W H s move gs.wallMode
        if isOccupied W H next gs myId then acc
        else (acc.1 ++ [⟨next, move, 1⟩],
              if acc.2.contains next then acc.2 else acc.2 ++ [next])) acc).2 := by
  intro ms
  induction ms with
  | nil => exact fun acc h => h
  | cons m ms ih =>
    intro acc hacc
    simp only [List.foldl_cons]
    by_cases hc : isOccupied W H (getNextCoord W H s m gs.wallMode) gs myId = true
    · rw [if_pos hc]
      exact ih acc hacc
    · rw [if_neg hc]
      apply ih
      intro e he
      dsimp only at he ⊢
      rcases List.mem_append.mp he with he' | he'
      · have := hacc e he'
        by_cases hct : acc.2.contains (getNextCoord W H s m gs.wallMode) = true
        · rw [if_pos hct]
          exact this
        · rw [if_neg hct]
          exact List.mem_append_left _ this
      · rw [List.mem_singleton] at he'
        subst he'
        by_cases hct : acc.2.contains (getNextCoord W H s m gs.wallMode) = true
        · rw [if_pos hct]
          exact (List.elem_iff).mp hct
        · rw [if_neg hct]
          exact List.mem_append_right _ (List.mem_singleton_self _)

/-- Full description of the BFS expansion fold: it appends, for some
duplicate-free list `new` of fresh open stepped-to cells, one queue entry per
cell of `new` (inheriting the dequeued entry's first move, at distance one
more) and the cells themselves to the visited set; and every open one-step
neighbour of the dequeued cell is either already visited or in `new`. -/
theorem bfsFold_spec (W H : Nat) (gs : GameState) (myId : Option Nat) (e : QEntry) :
    ∀ (ms : List Dir) (q0 : List QEntry) (V0 : List Pos),
      ∃ new : List Pos,
        ms.foldl (fun (acc : List QEntry × List Pos) move =>
          let next := getNextCoord W H e.pos move gs.wallMode
          if acc.2.contains next || isOccupied W H next gs myId then acc
          else (acc.1 ++ [⟨next, e.firstMove, e.dist + 1⟩], acc.2 ++ [next])) (q0, V0) =
          (q0 ++ new.map (fun p => (⟨p, e.firstMove, e.dist + 1⟩ : QEntry)), V0 ++ new) ∧
        new.Nodup ∧ (∀ p ∈ new, p ∉ V0) ∧
        (∀ p ∈ new, (∃ m ∈ ms, p = getNextCoord W H e.pos m gs.wallMode) ∧
          isOccupied W H p gs myId = false) ∧
        (∀ m ∈ ms, isOccupied W H (getNextCoord W H e.pos m gs.wallMode) gs myId = false →
          getNextCoord W H e.pos m gs.wallMode ∈ V0 ∨
            getNextCoord W H e.pos m gs.wallMode ∈ new) := by
  intro ms
  induction ms with
  | nil =>
    intro q0 V0
    exact ⟨[], by simp, List.nodup_nil, fun p hp => absurd hp (List.not_mem_nil p),
      fun p hp => absurd hp (List.not_mem_nil p), fun m hm => absurd hm (List.not_mem_nil m)⟩
  | cons m ms ih =>
    intro q0 V0
    simp only [List.foldl_cons]
    by_cases hc : (V0.contains (getNextCoord W H e.pos m gs.wallMode)
        || isOccupied W H (getNextCoord W H e.pos m gs.wallMode) gs myId) = true
    · rw [if_pos hc]
      obtain ⟨new, heq, hnd, hfresh, hchar, hcover⟩ := ih q0 V0
      refine ⟨new, heq, hnd, hfresh, ?_, ?_⟩
      · intro p hp
        obtain ⟨⟨m', hm', hpm⟩, hopen⟩ := hchar p hp
        exact ⟨⟨m', List.mem_cons_of_mem m hm', hpm⟩, hopen⟩
      · intro m' hm' hopen
        rcases List.mem_cons.mp hm' with rfl | hm''
        · rw [Bool.or_eq_true] at hc
          rcases hc with hc | hc
          · exact Or.inl ((List.elem_iff).mp hc)
          · rw [hopen] at hc
            cases hc
        · exact hcover m' hm'' hopen
    · rw [if_neg hc]
      obtain ⟨new, heq, hnd, hfresh, hchar, hcover⟩ :=
        ih (q0 ++ [⟨getNextCoord W H e.pos m gs.wallMode, e.firstMove, e.dist + 1⟩])
          (V0 ++ [getNextCoord W H e.pos m gs.wallMode])
      rw [Bool.or_eq_true, not_or] at hc
      have hnc : getNextCoord W H e.pos m gs.wallMode ∉ V0 :=
        fun hmem => hc.1 ((List.elem_iff).mpr hmem)
      have hopen : isOccupied W H (getNextCoord W H e.pos m gs.wallMode) gs myId = false :=
        Bool.not_eq_true _ ▸ hc.2
      refine ⟨getNextCoord W H e.pos m gs.wallMode :: new, ?_, ?_, ?_, ?_, ?_⟩
      · rw [heq]
        simp [List.append_assoc]
      · refine List.Nodup.cons (fun hmem => ?_) hnd
        exact hfresh _ hmem (List.mem_append_right _ (List.mem_singleton_self _))
      · intro p hp
        rcases List.mem_cons.mp hp with rfl | hp'
        · exact hnc
        · exact fun hmem => hfresh p hp' (List.mem_append_left _ hmem)
      · intro p hp
        rcases List.mem_cons.mp hp with rfl | hp'
        · exact ⟨⟨m, List.mem_cons_self m ms, rfl⟩, hopen⟩
        · obtain ⟨⟨m', hm', hpm⟩, hopen'⟩ := hchar p hp'
          exact ⟨⟨m', List.mem_cons_of_mem m hm', hpm⟩, hopen'⟩
      · intro m' hm' hopen'
        rcases List.mem_cons.mp hm' with rfl | hm''
        · exact Or.inr (List.mem_cons_self _ _)
        · rcases hcover m' hm'' hopen' with hV | hnew
          · rcases List.mem_append.mp hV with hV' | hV'
            · exact Or.inl hV'
            · rw [List.mem_singleton] at hV'
              exact Or.inr (hV' ▸ List.mem_cons_self _ _)
          · exact Or.inr (List.mem_cons_of_mem _ hnew)

/-- One BFS dequeue-and-expand step preserves the loop invariant at the same
level, spending one unit of fuel. -/
theorem bfsStep_preserves (W H : Nat) (gs : GameState) (myId : Option Nat) (head : Pos)
    (hW : 0 < W) (hH : 0 < H) (dstar : Nat) (hd50 : dstar ≤ 50)
    (d : Nat) (hdled : d ≤ dstar) (e : QEntry) (Q1' Q2 : List QEntry) (V : List Pos)
    (fuel : Nat)
    (hinv : BfsInv W H gs myId head dstar d (e :: Q1') Q2 V (fuel + 1))
    (hnf : isFoodCell gs e.pos = false) :
    ∃ (Q2' : List QEntry) (V' : List Pos),
      findPathAux W H gs myId (fuel + 1) (e :: (Q1' ++ Q2)) V =
        findPathAux W H gs myId fuel (Q1' ++ Q2') V' ∧
      BfsInv W H gs myId head dstar d Q1' Q2' V' fuel := by
  obtain ⟨h1, hQ1, hQ2, hJ2, hJ3, hJ4, hJ8a, hJ8b, hJ5, hJ6, hJ7a, hJ7b⟩ := hinv
  obtain ⟨hed, hes⟩ := hQ1 e (List.mem_cons_self e Q1')
  obtain ⟨hopen0, hlay0, hlayh, hexact⟩ := hes
  obtain ⟨new, heq, hnd, hfresh, hchar, hcover⟩ :=
    bfsFold_spec W H gs myId e moveOrder (Q1' ++ Q2) V
  refine ⟨Q2 ++ new.map (fun p => (⟨p, e.firstMove, e.dist + 1⟩ : QEntry)), V ++ new,
    ?_, ?_⟩
  · -- the program takes exactly one expansion step
    have hnf' : gs.food.any (fun f => f.x == e.pos.x && f.y == e.pos.y) = false := hnf
    conv_lhs => rw [findPathAux]
    rw [hnf', if_neg Bool.false_ne_true, if_neg (show ¬(50 < e.dist) by omega)]
    exact (congrArg (fun z : List QEntry × List Pos =>
      findPathAux W H gs myId fuel z.1 z.2) heq).trans (by rw [List.append_assoc])
  · -- the invariant survives
    have hmemNbr : ∀ p ∈ new, p ∈ openNbrs W H gs myId e.pos := by
      intro p hp
      obtain ⟨⟨m, _, hpm⟩, hop⟩ := hchar p hp
      exact hpm ▸ openNbrs_of_step W H gs myId e.pos m (every_dir_mem_moveOrder m)
        (hpm ▸ hop)
    refine ⟨h1, fun e' he' => hQ1 e' (List.mem_cons_of_mem e he'), ?_, ?_, ?_, ?_,
      ?_, ?_, ?_, ?_, ?_, ?_⟩
    · -- Q2' entries are sound at level d + 1
      intro e' he'
      rcases List.mem_append.mp he' with he' | he'
      · exact hQ2 e' he'
      · obtain ⟨p, hp, rfl⟩ := List.mem_map.mp he'
        refine ⟨by dsimp only; omega, hopen0, ?_, ?_, ?_⟩
        · dsimp only
          have hd1 : e.dist + 1 - 1 = (e.dist - 1) + 1 := by omega
          rw [hd1]
          exact (mem_layersFrom_succ W H gs myId _ p (e.dist - 1)).mpr
            ⟨e.pos, hlay0, hmemNbr p hp⟩
        · dsimp only
          exact (mem_layersFrom_succ W H gs myId head p e.dist).mpr
            ⟨e.pos, hlayh, hmemNbr p hp⟩
        · dsimp only
          intro n hn1 hnlt hpl
          exact hfresh p hp (hJ4 p n hn1 (by omega) hpl)
    · -- frontier cover
      intro p hpl hpex
      rcases hJ2 p hpl hpex with ⟨e2, he2, hpos⟩ | ⟨e1, he1, hnbr⟩
      · exact Or.inl ⟨e2, List.mem_append_left _ he2, hpos⟩
      · rcases List.mem_cons.mp he1 with rfl | he1'
        · obtain ⟨⟨m, hm, hpm⟩, hop⟩ := (mem_openNbrs_iff W H gs myId e1.pos p).mp hnbr
          rcases hcover m hm (hpm ▸ hop) with hV | hnew
          · rcases hJ3 _ hV with ⟨n, hn1, hnd', hpl'⟩ | ⟨e2, he2, hpos⟩
            · exact absurd (hpm ▸ hpl') (hpex n hn1 hnd')
            · exact Or.inl ⟨e2, List.mem_append_left _ he2, hpm ▸ hpos⟩
          · exact Or.inl ⟨⟨getNextCoord W H e1.pos m gs.wallMode, e1.firstMove,
              e1.dist + 1⟩, List.mem_append_right _ (List.mem_map_of_mem _ hnew),
              hpm.symm⟩
        · exact Or.inr ⟨e1, he1', hnbr⟩
    · -- visited characterisation
      intro p hp
      rcases List.mem_append.mp hp with hp' | hp'
      · rcases hJ3 p hp' with hle | ⟨e2, he2, hpos⟩
        · exact Or.inl hle
        · exact Or.inr ⟨e2, List.mem_append_left _ he2, hpos⟩
      · exact Or.inr ⟨⟨p, e.firstMove, e.dist + 1⟩,
          List.mem_append_right _ (List.mem_map_of_mem _ hp'), rfl⟩
    · exact fun p n hn1 hnd' hpl => List.mem_append_left _ (hJ4 p n hn1 hnd' hpl)
    · exact fun e' he' => List.mem_append_left _
        (hJ8a e' (List.mem_cons_of_mem e he'))
    · intro e' he'
      rcases List.mem_append.mp he' with he' | he'
      · exact List.mem_append_left _ (hJ8b e' he')
      · obtain ⟨p, hp, rfl⟩ := List.mem_map.mp he'
        exact List.mem_append_right _ hp
    · intro hdd
      obtain ⟨ef, hef, heff⟩ := hJ5 hdd
      rcases List.mem_cons.mp hef with rfl | hef'
      · rw [heff] at hnf
        cases hnf
      · exact ⟨ef, hef', heff⟩
    · simp only [List.length_append, List.length_map, List.length_cons] at hJ6 ⊢
      omega
    · rw [List.nodup_append]
      exact ⟨hJ7a, hnd, fun p hpV hpnew => hfresh p hpnew hpV⟩
    · intro p hp
      rcases List.mem_append.mp hp with hp' | hp'
      · exact hJ7b p hp'
      · obtain ⟨⟨m, _, hpm⟩, hop⟩ := hchar p hp'
        exact step_open_mem_visBound W H gs myId head hW hH m
          (hJ7b e.pos (hJ8a e (List.mem_cons_self e Q1'))) hpm hop

/-- A duplicate-free visited set inside the visited bound has at most
`W * H + 5` cells. -/
theorem visited_len_le (W H : Nat) (gs : GameState) (head : Pos) (V : List Pos)
    (hnd : V.Nodup)
    (hsub : ∀ p ∈ V, p ∈ head :: (rawNbrs W H gs.wallMode head ++ gridList W H)) :
    V.length ≤ W * H + 5 := by
  have h := List.Subperm.length_le (List.subperm_of_subset hnd hsub)
  rw [visBound_length] at h
  exact h

/-- The BFS master lemma: from any state satisfying the loop invariant at a
level at most the minimal food distance `dstar`, the search terminates with
`some (m, dstar)` where the first move `m` steps to an open cell from which
a walk of length `dstar - 1` through open cells reaches food. -/
theorem findPathAux_master (W H : Nat) (gs : GameState) (myId : Option Nat) (head : Pos)
    (hW : 0 < W) (hH : 0 < H) (dstar : Nat) (hd50 : dstar ≤ 50)
    (hmin : ∀ n : Nat, 1 ≤ n → n < dstar → ∀ p ∈ layersFrom W H gs myId head n,
      isFoodCell gs p = false)
    (hfoodstar : ∃ p ∈ layersFrom W H gs myId head dstar, isFoodCell gs p = true)
    (hexact : ∀ j : Nat, 1 ≤ j → j ≤ dstar →
      ∃ r : Pos, r ∈ layersFrom W H gs myId head j ∧
        ∀ n : Nat, 1 ≤ n → n < j → r ∉ layersFrom W H gs myId head n) :
    ∀ (k fuel d : Nat) (Q1 Q2 : List QEntry) (V : List Pos),
      d + k = dstar →
      BfsInv W H gs myId head dstar d Q1 Q2 V fuel →
      ∃ m : Dir,
        isOccupied W H (getNextCoord W H head m gs.wallMode) gs myId = false ∧
        (∃ p ∈ layersFrom W H gs myId (getNextCoord W H head m gs.wallMode) (dstar - 1),
          isFoodCell gs p = true) ∧
        findPathAux W H gs myId fuel (Q1 ++ Q2) V = some (m, dstar) := by
  intro k
  induction k with
  | zero =>
    intro fuel
    induction fuel with
    | zero =>
      intro d Q1 Q2 V hk hinv
      obtain ⟨h1, hQ1, hQ2, hJ2, hJ3, hJ4, hJ8a, hJ8b, hJ5, hJ6, hJ7a, hJ7b⟩ := hinv
      obtain ⟨ef, hef, _⟩ := hJ5 (by omega)
      exfalso
      have hVlen := visited_len_le W H gs head V hJ7a hJ7b
      have hQ1len : 0 < Q1.length := List.length_pos.mpr (List.ne_nil_of_mem hef)
      omega
    | succ fuel ihf =>
      intro d Q1 Q2 V hk hinv
      have hd : d = dstar := by omega
      obtain ⟨h1, hQ1, hQ2, hJ2, hJ3, hJ4, hJ8a, hJ8b, hJ5, hJ6, hJ7a, hJ7b⟩ := hinv
      obtain ⟨ef, hef, heff⟩ := hJ5 hd
      cases Q1 with
      | nil => exact absurd hef (List.not_mem_nil ef)
      | cons e Q1' =>
        by_cases hfood : isFoodCell gs e.pos = true
        · obtain ⟨hed, hopen0, hlay0, hlayh, hexacte⟩ := hQ1 e (List.mem_cons_self e Q1')
          rw [hed, hd] at hlay0
          refine ⟨e.firstMove, hopen0, ⟨e.pos, hlay0, hfood⟩, ?_⟩
          rw [List.cons_append]
          conv_lhs => rw [findPathAux]
          have hfood' : gs.food.any (fun f => f.x == e.pos.x && f.y == e.pos.y) = true :=
            hfood
          rw [hfood', if_pos rfl, hed, hd]
        · have hnf : isFoodCell gs e.pos = false := Bool.not_eq_true _ ▸ hfood
          obtain ⟨Q2', V', hstep, hinv'⟩ := bfsStep_preserves W H gs myId head hW hH
            dstar hd50 d (by omega) e Q1' Q2 V fuel
            ⟨h1, hQ1, hQ2, hJ2, hJ3, hJ4, hJ8a, hJ8b, hJ5, hJ6, hJ7a, hJ7b⟩ hnf
          obtain ⟨m, hopen, hwit, hres⟩ := ihf d Q1' Q2' V' hk hinv'
          refine ⟨m, hopen, hwit, ?_⟩
          rw [List.cons_append, hstep]
          exact hres
  | succ k ihk =>
    intro fuel
    induction fuel with
    | zero =>
      intro d Q1 Q2 V hk hinv
      obtain ⟨h1, hQ1, hQ2, hJ2, hJ3, hJ4, hJ8a, hJ8b, hJ5, hJ6, hJ7a, hJ7b⟩ := hinv
      exfalso
      have hVlen := visited_len_le W H gs head V hJ7a hJ7b
      obtain ⟨c, hc, hcex⟩ := hexact (d + 1) (by omega) (by omega)
      rcases hJ2 c hc (fun n hn1 hnd => hcex n hn1 (by omega)) with
        ⟨e2, he2, _⟩ | ⟨e1, he1, _⟩
      · have : 0 < Q2.length := List.length_pos.mpr (List.ne_nil_of_mem he2)
        omega
      · have : 0 < Q1.length := List.length_pos.mpr (List.ne_nil_of_mem he1)
        omega
    | succ fuel ihf =>
      intro d Q1 Q2 V hk hinv
      obtain ⟨h1, hQ1, hQ2, hJ2, hJ3, hJ4, hJ8a, hJ8b, hJ5, hJ6, hJ7a, hJ7b⟩ := hinv
      cases Q1 with
      | nil =>
        have hinv2 : BfsInv W H gs myId head dstar (d + 1) Q2 [] V (fuel + 1) := by
          refine ⟨by omega, hQ2, fun e he => absurd he (List.not_mem_nil e),
            ?_, ?_, ?_, hJ8b, fun e he => absurd he (List.not_mem_nil e), ?_, ?_,
            hJ7a, hJ7b⟩
          · intro p hpl hpex
            obtain ⟨r, hr, hrex, hpr⟩ := layer_parent_exact W H gs myId head p (d + 1)
              hpl (fun k hk1 hkd => hpex k hk1 hkd)
            rcases hJ2 r hr (fun n hn1 hnd => hrex n hn1 (by omega)) with
              ⟨e2, he2, hpos⟩ | ⟨e1, he1, _⟩
            · exact Or.inr ⟨e2, he2, hpos ▸ hpr⟩
            · exact absurd he1 (List.not_mem_nil e1)
          · intro p hp
            rcases hJ3 p hp with ⟨n, hn1, hnd, hpl⟩ | ⟨e2, he2, hpos⟩
            · exact Or.inl ⟨n, hn1, by omega, hpl⟩
            · obtain ⟨hed2, _, _, hlayh2, _⟩ := hQ2 e2 he2
              exact Or.inl ⟨d + 1, by omega, le_refl _, hpos ▸ hed2 ▸ hlayh2⟩
          · intro p n hn1 hnd hpl
            rcases Nat.lt_or_ge n (d + 1) with hlt | hge
            · exact hJ4 p n hn1 (by omega) hpl
            · have hn : n = d + 1 := by omega
              subst hn
              by_cases hprev : ∃ m : Nat, 1 ≤ m ∧ m ≤ d ∧ p ∈ layersFrom W H gs myId head m
              · obtain ⟨m, hm1, hmd, hpm⟩ := hprev
                exact hJ4 p m hm1 hmd hpm
              · rcases hJ2 p hpl (fun n hn1 hnd hpl' => hprev ⟨n, hn1, hnd, hpl'⟩) with
                  ⟨e2, he2, hpos⟩ | ⟨e1, he1, _⟩
                · exact hpos ▸ hJ8b e2 he2
                · exact absurd he1 (List.not_mem_nil e1)
          · intro hd1eq
            obtain ⟨ps, hps, hpsf⟩ := hfoodstar
            have psex : ∀ n : Nat, 1 ≤ n → n < dstar →
                ps ∉ layersFrom W H gs myId head n := by
              intro n hn1 hnlt hmem
              have := hmin n hn1 hnlt ps hmem
              rw [this] at hpsf
              cases hpsf
            have hps' : ps ∈ layersFrom W H gs myId head (d + 1) := by
              rw [hd1eq]; exact hps
            rcases hJ2 ps hps' (fun n hn1 hnd hpl' => psex n hn1 (by omega) hpl') with
              ⟨e2, he2, hpos⟩ | ⟨e1, he1, _⟩
            · exact ⟨e2, he2, by rw [hpos]; exact hpsf⟩
            · exact absurd he1 (List.not_mem_nil e1)
          · simp only [List.length_nil] at hJ6 ⊢
            omega
        obtain ⟨m, hopen, hwit, hres⟩ := ihk (fuel + 1) (d + 1) Q2 [] V (by omega) hinv2
        refine ⟨m, hopen, hwit, ?_⟩
        rw [List.append_nil] at hres
        exact hres
      | cons e Q1' =>
        obtain ⟨hed, hopen0, hlay0, hlayh, hexacte⟩ := hQ1 e (List.mem_cons_self e Q1')
        rw [hed] at hlayh
        have hnf : isFoodCell gs e.pos = false := hmin d h1 (by omega) e.pos hlayh
        obtain ⟨Q2', V', hstep, hinv'⟩ := bfsStep_preserves W H gs myId head hW hH
          dstar hd50 d (by omega) e Q1' Q2 V fuel
          ⟨h1, hQ1, hQ2, hJ2, hJ3, hJ4, hJ8a, hJ8b, hJ5, hJ6, hJ7a, hJ7b⟩ hnf
        obtain ⟨m, hopen, hwit, hres⟩ := ihf d Q1' Q2' V' hk hinv'
        refine ⟨m, hopen, hwit, ?_⟩
        rw [List.cons_append, hstep]
        exact hres

/-- The first layer is exactly the open neighbours of the start. -/
theorem mem_layer_one (W H : Nat) (gs : GameState) (myId : Option Nat) (head p : Pos) :
    p ∈ layersFrom W H gs myId head 1 ↔ p ∈ openNbrs W H gs myId head := by
  constructor
  · intro h
    obtain ⟨r, hr, hpr⟩ := (mem_layersFrom_succ W H gs myId head p 0).mp h
    rw [mem_layersFrom_zero] at hr
    subst hr
    exact hpr
  · intro h
    exact (mem_layersFrom_succ W H gs myId head p 0).mpr
      ⟨head, (mem_layersFrom_zero W H gs myId head head).mpr rfl, h⟩

/-- The seed state of the BFS satisfies the loop invariant at level 1. -/
theorem bfsSeeds_inv (W H : Nat) (gs : GameState) (myId : Option Nat) (head : Pos)
    (dstar : Nat)
    (hfoodstar1 : 1 = dstar →
      ∃ p ∈ layersFrom W H gs myId head 1, isFoodCell gs p = true) :
    BfsInv W H gs myId head dstar 1 (bfsSeeds W H gs myId head).1 []
      (bfsSeeds W H gs myId head).2 (W * H + 9) := by
  have hvischar : ∀ p ∈ (bfsSeeds W H gs myId head).2, ∃ m : Dir,
      p = getNextCoord W H head m gs.wallMode ∧ isOccupied W H p gs myId = false := by
    intro p hp
    rcases seedsFold_vis_char W H gs myId head moveOrder ([], []) p hp with h0 | hch
    · exact absurd h0 (List.not_mem_nil p)
    · exact hch
  have hnbrvis : ∀ p ∈ openNbrs W H gs myId head,
      (∃ e ∈ (bfsSeeds W H gs myId head).1,
        e.pos = p ∧ e.dist = 1 ∧ e.firstMove ∈ moveOrder) ∧
      p ∈ (bfsSeeds W H gs myId head).2 := by
    intro p hp
    obtain ⟨⟨m, hm, hpm⟩, hpopen⟩ := (mem_openNbrs_iff W H gs myId head p).mp hp
    obtain ⟨⟨e', he', hepos, hedist, hefm⟩, hvis⟩ :=
      seedsFold_cover W H gs myId head moveOrder ([], []) m hm
        (by rw [← hpm]; exact hpopen)
    refine ⟨⟨e', he', by rw [hepos, ← hpm], hedist, hefm ▸ hm⟩, ?_⟩
    rw [hpm]
    exact hvis
  refine ⟨le_refl 1, ?_, fun e he => absurd he (List.not_mem_nil e), ?_, ?_, ?_, ?_,
    fun e he => absurd he (List.not_mem_nil e), ?_, ?_, ?_, ?_⟩
  · -- seed entries are sound at distance 1
    intro e he
    obtain ⟨m, hpos, hocc, hdist, hfm⟩ := bfsSeeds_mem W H gs myId head e he
    have hnbr : e.pos ∈ openNbrs W H gs myId head := by
      rw [hpos]
      exact openNbrs_of_step W H gs myId head m (every_dir_mem_moveOrder m)
        (by rw [← hpos]; exact hocc)
    refine ⟨hdist, ?_, ?_, ?_, ?_⟩
    · rw [hfm, ← hpos]
      exact hocc
    · rw [hfm, hdist]
      exact (mem_layersFrom_zero W H gs myId _ _).mpr (by rw [← hpos])
    · rw [hdist]
      exact (mem_layer_one W H gs myId head e.pos).mpr hnbr
    · rw [hdist]
      exact fun n hn1 hnlt => absurd hnlt (by omega)
  · -- frontier cover at level 1
    intro p hpl _
    obtain ⟨q, hq, hpq⟩ := (mem_layersFrom_succ W H gs myId head p 1).mp hpl
    have hq1 := (mem_layer_one W H gs myId head q).mp hq
    obtain ⟨⟨e', he', hepos, _, _⟩, _⟩ := hnbrvis q hq1
    exact Or.inr ⟨e', he', by rw [hepos]; exact hpq⟩
  · -- visited characterisation
    intro p hp
    obtain ⟨m, hpm, hpopen⟩ := hvischar p hp
    refine Or.inl ⟨1, le_refl 1, le_refl 1, ?_⟩
    rw [mem_layer_one, hpm]
    exact openNbrs_of_step W H gs myId head m (every_dir_mem_moveOrder m)
      (by rw [← hpm]; exact hpopen)
  · -- visited covers distance 1
    intro p n hn1 hnd hpl
    have hn : n = 1 := by omega
    subst hn
    exact (hnbrvis p ((mem_layer_one W H gs myId head p).mp hpl)).2
  · -- queue positions are visited
    exact seedsFold_qv W H gs myId head moveOrder ([], [])
      (fun e' he' => absurd he' (List.not_mem_nil e'))
  · -- a food entry is queued if the minimal distance is 1
    intro hd1
    obtain ⟨ps, hps, hpsf⟩ := hfoodstar1 hd1
    obtain ⟨⟨e', he', hepos, _, _⟩, _⟩ :=
      hnbrvis ps ((mem_layer_one W H gs myId head ps).mp hps)
    exact ⟨e', he', by rw [hepos]; exact hpsf⟩
  · -- fuel bound
    have hlen : (bfsSeeds W H gs myId head).1.length ≤ 0 + 4 :=
      seedsFold_len W H gs myId head moveOrder ([], [])
    simp only [List.length_nil]
    omega
  · -- visited duplicate-free
    exact seedsFold_vis_nodup W H gs myId head moveOrder ([], []) List.nodup_nil
  · -- visited bounded
    intro p hp
    obtain ⟨m, hpm, _⟩ := hvischar p hp
    exact List.mem_cons_of_mem _ (List.mem_append_left _
      (by rw [hpm]; exact mem_rawNbrs_of_step W H gs.wallMode head m))

/-- C3: when some food cell is reachable from the head through unblocked
cells within the depth cap, the Pathfinder returns `some (firstMove, dist)`
where `dist` is the least positive walk length through unblocked cells from
the head to any food cell (the true BFS distance over the grid graph with
blocked cells removed), and `firstMove` is the first step of some path of
that minimal length: it steps to an open cell from which food is reached in
`dist - 1` further open steps.  Ties among equally short paths are broken by
the traversal order of the breadth-first loop, which expands directions in
the fixed order up, down, left, right. -/
theorem claim3_pathfinder (W H : Nat) (gs : GameState) (myId : Option Nat) (head : Pos)
    (hW : 0 < W) (hH : 0 < H)
    (hreach : ∃ n : Nat, 0 < n ∧ n ≤ 50 ∧
      ∃ p ∈ layersFrom W H gs myId head n, isFoodCell gs p = true) :
    ∃ (m : Dir) (dist : Nat),
      findPathToClosestFood W H head gs myId = some (m, dist) ∧
      0 < dist ∧
      (∃ p ∈ layersFrom W H gs myId head dist, isFoodCell gs p = true) ∧
      (∀ n : Nat, 0 < n →
        (∃ p ∈ layersFrom W H gs myId head n, isFoodCell gs p = true) → dist ≤ n) ∧
      isOccupied W H (getNextCoord W H head m gs.wallMode) gs myId = false ∧
      ∃ p ∈ layersFrom W H gs myId (getNextCoord W H head m gs.wallMode) (dist - 1),
        isFoodCell gs p = true := by
  obtain ⟨hpos, h50, hfoodstar⟩ := Nat.find_spec hreach
  have hmin : ∀ n : Nat, 1 ≤ n → n < Nat.find hreach →
      ∀ p ∈ layersFrom W H gs myId head n, isFoodCell gs p = false := by
    intro n hn1 hlt p hp
    cases hfc : isFoodCell gs p with
    | false => rfl
    | true => exact absurd ⟨by omega, by omega, p, hp, hfc⟩ (Nat.find_min hreach hlt)
  obtain ⟨ps, hps, hpsf⟩ := hfoodstar
  have hpsex : ∀ n : Nat, 1 ≤ n → n < Nat.find hreach →
      ps ∉ layersFrom W H gs myId head n := by
    intro n hn1 hlt hmem
    have := hmin n hn1 hlt ps hmem
    rw [this] at hpsf
    cases hpsf
  have hexact' : ∀ j : Nat, 1 ≤ j → j ≤ Nat.find hreach →
      ∃ r : Pos, r ∈ layersFrom W H gs myId head j ∧
        ∀ n : Nat, 1 ≤ n → n < j → r ∉ layersFrom W H gs myId head n :=
    fun j hj1 hjle => exists_exact_layer W H gs myId head (Nat.find hreach) ps hps hpsex
      (Nat.find hreach - j) j (by omega) hj1
  have hinit := bfsSeeds_inv W H gs myId head (Nat.find hreach)
    (fun hd1 => by rw [hd1]; exact ⟨ps, hps, hpsf⟩)
  obtain ⟨m, hopen, hwit, hres⟩ := findPathAux_master W H gs myId head hW hH
    (Nat.find hreach) h50 hmin ⟨ps, hps, hpsf⟩ hexact'
    (Nat.find hreach - 1) (W * H + 9) 1 (bfsSeeds W H gs myId head).1 []
    (bfsSeeds W H gs myId head).2 (by omega) hinit
  rw [List.append_nil] at hres
  refine ⟨m, Nat.find hreach, hres, hpos, ⟨ps, hps, hpsf⟩, ?_, hopen, hwit⟩
  intro n hn0 hfood'
  by_contra hlt
  push_neg at hlt
  obtain ⟨p, hp, hpf⟩ := hfood'
  have := hmin n (by omega) hlt p hp
  rw [this] at hpf
  cases hpf

set_option maxRecDepth 1000000 in
set_option maxHeartbeats 2000000 in
/-- Witness for C3 at the 10 by 10 scenario. -/
theorem claim3_pathfinder_witness :
    ∃ (m : Dir) (dist : Nat),
      findPathToClosestFood 10 10 ⟨5, 5⟩ c3wGS none = some (m, dist) ∧
      0 < dist ∧
      (∃ p ∈ layersFrom 10 10 c3wGS none ⟨5, 5⟩ dist, isFoodCell c3wGS p = true) ∧
      (∀ n : Nat, 0 < n →
        (∃ p ∈ layersFrom 10 10 c3wGS none ⟨5, 5⟩ n, isFoodCell c3wGS p = true) →
        dist ≤ n) ∧
      isOccupied 10 10 (getNextCoord 10 10 ⟨5, 5⟩ m c3wGS.wallMode) c3wGS none = false ∧
      ∃ p ∈ layersFrom 10 10 c3wGS none (getNextCoord 10 10 ⟨5, 5⟩ m c3wGS.wallMode)
        (dist - 1), isFoodCell c3wGS p = true :=
  claim3_pathfinder 10 10 c3wGS none ⟨5, 5⟩ (by decide) (by decide) ⟨5, by decide⟩
